import Mathlib

set_option maxRecDepth 10000

/-!
Verification of the segmentation and chaining core of the YImage library
(`img_segment.c`, `img.h`, `heapsort.h`).

The C code is shallowly embedded: pixel samples are exact rationals (every
supported scalar pixel type compares by `|a - b| <= threshold`, computed
exactly in the pixel's own numeric space), machine `int16_t` coordinates are
integers reduced modulo 2^16 into `[-32768, 32767]`, link bitmaps are
functions from flat cell index to the 8-bit mask value, and fallible C
functions returning `NULL` become `Option`-valued functions.  Out-of-memory
paths are not modelled (allocation always succeeds in the embedding); all
other control flow follows the source.
-/

namespace YImage

/-! ## Constants from img.h -/

/-- Link bit: the east (right) neighbour belongs to the same region. -/
def IMG_LINK_EAST : ℕ := 1

/-- Link bit: the west (left) neighbour belongs to the same region. -/
def IMG_LINK_WEST : ℕ := 2

/-- Link bit: the north (above) neighbour belongs to the same region. -/
def IMG_LINK_NORTH : ℕ := 4

/-- Link bit: the south (below) neighbour belongs to the same region. -/
def IMG_LINK_SOUTH : ℕ := 8

/-- Link bit: pixel already taken into account by the region extractor. -/
def IMG_LINK_OWNED : ℕ := 16

/-- Empty link mask. -/
def IMG_LINK_NONE : ℕ := 0

/-! ## Link builder (`BUILD_LINKS(TYPE)` in img_segment.c)

The C source re-includes itself once per pixel type; all ten supported
scalar instantiations have identical control flow and differ only in the
`SIMILAR`/`==` comparison, which is exact in every instantiation, so a
single generic function over exact rational samples embeds all of them.
The image and link views are flat arrays addressed by `offset + y*pitch + x`
(the C walks pointers `img0 += img_pitch`, `lnk0 += lnk_pitch`). -/

/-- Flat index of the cell (x, y) of a view with the given offset and pitch. -/
def cellIdx (offset pitch x y : ℕ) : ℕ := offset + y * pitch + x

/-- Pixel sample I(x, y) of an image view. -/
def sample (img : ℕ → ℚ) (offset pitch x y : ℕ) : ℚ := img (cellIdx offset pitch x y)

/-- Macro `SIMILAR(a,b,t)`: whether `ABS_DIFF(a,b) <= t`.  `ABS_DIFF` is the
exact absolute difference in every scalar instantiation (signed, unsigned via
`max - min`, and floating point). -/
def SIMILAR (a b t : ℚ) : Bool := decide (|a - b| ≤ t)

/-- Processing of cell (x, 0), `x >= 1`, of the first row: compare with the
west neighbour; on similarity `lnk0[x-1] |= EAST; lnk0[x] = WEST`, else
`lnk0[x] = NONE`. -/
def row0cell (sim : ℚ → ℚ → Bool) (img : ℕ → ℚ) (ioff ip loff lp : ℕ) (x : ℕ)
    (l : ℕ → ℕ) : ℕ → ℕ :=
  if sim (sample img ioff ip x 0) (sample img ioff ip (x - 1) 0) then
    Function.update
      (Function.update l (cellIdx loff lp (x - 1) 0)
        (l (cellIdx loff lp (x - 1) 0) ||| IMG_LINK_EAST))
      (cellIdx loff lp x 0) IMG_LINK_WEST
  else
    Function.update l (cellIdx loff lp x 0) IMG_LINK_NONE

/-- First-row loop `for (x = 1; x < width; ++x)`, having processed
cells `x = 1 .. n`. -/
def row0aux (sim : ℚ → ℚ → Bool) (img : ℕ → ℚ) (ioff ip loff lp : ℕ) :
    ℕ → (ℕ → ℕ) → (ℕ → ℕ)
  | 0, l => l
  | n + 1, l => row0cell sim img ioff ip loff lp (n + 1) (row0aux sim img ioff ip loff lp n l)

/-- Processing of cell (x, y), `x >= 1`, `y >= 1`: compare with the west
neighbour (bits EAST at (x-1,y) and WEST at (x,y)) and with the pixel below
(bits NORTH at (x,y-1) and SOUTH at (x,y)); finally `lnk0[x] = bit0 | bit2`. -/
def rowYcell (sim : ℚ → ℚ → Bool) (img : ℕ → ℚ) (ioff ip loff lp : ℕ) (y x : ℕ)
    (l : ℕ → ℕ) : ℕ → ℕ :=
  let p0 := sample img ioff ip x y
  let p1 := sample img ioff ip (x - 1) y
  let p2 := sample img ioff ip x (y - 1)
  let l1 := if sim p0 p1 then
      Function.update l (cellIdx loff lp (x - 1) y)
        (l (cellIdx loff lp (x - 1) y) ||| IMG_LINK_EAST)
    else l
  let bit0 := if sim p0 p1 then IMG_LINK_WEST else IMG_LINK_NONE
  let l2 := if sim p0 p2 then
      Function.update l1 (cellIdx loff lp x (y - 1))
        (l1 (cellIdx loff lp x (y - 1)) ||| IMG_LINK_NORTH)
    else l1
  let bit2 := if sim p0 p2 then IMG_LINK_SOUTH else IMG_LINK_NONE
  Function.update l2 (cellIdx loff lp x y) (bit0 ||| bit2)

/-- Inner loop of row `y >= 1`, having processed cells `x = 1 .. n`. -/
def rowYaux (sim : ℚ → ℚ → Bool) (img : ℕ → ℚ) (ioff ip loff lp y : ℕ) :
    ℕ → (ℕ → ℕ) → (ℕ → ℕ)
  | 0, l => l
  | n + 1, l => rowYcell sim img ioff ip loff lp y (n + 1) (rowYaux sim img ioff ip loff lp y n l)

/-- Full processing of row `y >= 1`: `lnk0[0] = NONE` then the inner loop. -/
def rowY (sim : ℚ → ℚ → Bool) (img : ℕ → ℚ) (ioff ip loff lp width y : ℕ)
    (l : ℕ → ℕ) : ℕ → ℕ :=
  rowYaux sim img ioff ip loff lp y (width - 1)
    (Function.update l (cellIdx loff lp 0 y) IMG_LINK_NONE)

/-- Outer loop `for (y = 1; y < height; ++y)`, having processed rows `1 .. m`. -/
def rowsAux (sim : ℚ → ℚ → Bool) (img : ℕ → ℚ) (ioff ip loff lp width : ℕ) :
    ℕ → (ℕ → ℕ) → (ℕ → ℕ)
  | 0, l => l
  | m + 1, l => rowY sim img ioff ip loff lp width (m + 1)
      (rowsAux sim img ioff ip loff lp width m l)

/-- Whole loop body of `BUILD_LINKS` for a given similarity predicate:
`lnk0[0] = NONE`, the first-row loop, then the remaining rows. -/
def build_links_loop (sim : ℚ → ℚ → Bool) (img : ℕ → ℚ)
    (ioff ip loff lp width height : ℕ) (l : ℕ → ℕ) : ℕ → ℕ :=
  rowsAux sim img ioff ip loff lp width (height - 1)
    (row0aux sim img ioff ip loff lp (width - 1)
      (Function.update l (cellIdx loff lp 0 0) IMG_LINK_NONE))

/-- Function `BUILD_LINKS(TYPE)`: fill the link bitmap of an image view.
Returns `none` on the C failure paths (`pitch < width`, non-positive
dimensions); the two C branches (`threshold != 0` with `SIMILAR`, and
`threshold == 0` with `==`) duplicate the same loops with a different
comparison. -/
def build_links (img : ℕ → ℚ) (img_offset img_pitch : ℕ) (lnk : ℕ → ℕ)
    (lnk_offset lnk_pitch width height : ℕ) (threshold : ℚ) : Option (ℕ → ℕ) :=
  if img_pitch < width ∨ lnk_pitch < width then none
  else if width = 0 ∨ height = 0 then none
  else if threshold ≠ 0 then
    some (build_links_loop (fun a b => SIMILAR a b threshold) img
      img_offset img_pitch lnk_offset lnk_pitch width height lnk)
  else
    some (build_links_loop (fun a b => decide (a = b)) img
      img_offset img_pitch lnk_offset lnk_pitch width height lnk)

/-! ## Points, segments, segmentations (private structures of img_segment.c) -/

/-- Struct `_point`: stored link mask and `int16_t` raster coordinates. -/
structure Point where
  link : ℕ
  x : ℤ
  y : ℤ
deriving DecidableEq, Repr

/-- Reduction of a C `long` value into `int16_t` (two's complement wrap),
performed by the assignments `point->x = (IDX)%width` etc. -/
def toInt16 (n : ℤ) : ℤ := (n + 32768) % 65536 - 32768

/-- Struct `_segment` (the chainable header fields `level`, `nparents`,
`first_link` live only inside `img_chainpool_new` and are represented there
by the chain-link graph itself). -/
structure Segment where
  xcen : ℚ
  ycen : ℚ
  point : List Point
  count : ℕ
  xmin : ℤ
  xmax : ℤ
  ymin : ℤ
  ymax : ℤ
  width : ℤ
  height : ℤ
deriving DecidableEq, Repr

instance : Inhabited Segment :=
  ⟨{ xcen := 0, ycen := 0, point := [], count := 0, xmin := 0, xmax := 0,
     ymin := 0, ymax := 0, width := 0, height := 0 }⟩

/-- Struct `_img_segmentation`.  The shared flat point buffer `ws->point` is
the in-order concatenation of the segments' point lists and is represented
by them. -/
structure Segmentation where
  nrefs : ℤ
  segment : List Segment
  width : ℕ
  height : ℕ
deriving DecidableEq, Repr

/-- Field `ws->number` (always the length of the segment table). -/
def Segmentation.number (s : Segmentation) : ℕ := s.segment.length

/-! ## Region extractor (flood fill inside `img_segmentation_new`)

The C marks visited pixels by `link[i] |= OWNED` and keeps, per region, a
queue `region[1..size]` of flat pixel indices whose scan pointer `j` chases
the growing tail.  The embedding carries the link map, the queue of stored
but unscanned indices, and the list of (index, point) pairs in store order.
The C indexes `link[k-1]`, `link[k+1]`, `link[k-width]`, `link[k+width]`
without bounds checks, which is undefined behaviour when a link bit points
outside the array; the builder never sets such bits (see
`build_links_value`), and the embedding guards each neighbour index to stay
inside `[0, npix)`, which is behaviour-preserving on builder-produced maps. -/

/-- Macro `STORE(IDX)` builds this point record (before `OWNED` is set). -/
def storePoint (link : ℕ → ℕ) (width i : ℕ) : Point :=
  { link := link i,
    x := toInt16 ((i % width : ℕ) : ℤ),
    y := toInt16 ((i / width : ℕ) : ℤ) }

/-- Number of pixels of the image not yet owned by a segment (the
termination measure of the scan). -/
def countUnowned (npix : ℕ) (link : ℕ → ℕ) : ℕ :=
  ((Finset.range npix).filter (fun i => link i &&& IMG_LINK_OWNED = 0)).card

/-- Macro `CHECK(DIR, IDX)` applied to one neighbour candidate: if the
direction bit is set and the candidate is in range and unowned, store it
(record its point, mark it owned, append it to the region queue). -/
def checkNbr (width npix : ℕ) (st : (ℕ → ℕ) × List (ℕ × Point) × List ℕ)
    (chk : Bool × ℕ) : (ℕ → ℕ) × List (ℕ × Point) × List ℕ :=
  let c := chk.2
  if chk.1 ∧ c < npix ∧ st.1 c &&& IMG_LINK_OWNED = 0 then
    (Function.update st.1 c (st.1 c ||| IMG_LINK_OWNED),
     st.2.1 ++ [(c, storePoint st.1 width c)],
     st.2.2 ++ [c])
  else st

/-- The four neighbour candidates of pixel `k` with mask `s`, in the order
of the C code (WEST `k-1`, EAST `k+1`, SOUTH `k-width`, NORTH `k+width`);
the side conditions `1 <= k` and `width <= k` keep the natural subtraction
meaningful (the C computes the same signed index). -/
def neighborChecks (width : ℕ) (s k : ℕ) : List (Bool × ℕ) :=
  [(decide (s &&& IMG_LINK_WEST ≠ 0 ∧ 1 ≤ k), k - 1),
   (decide (s &&& IMG_LINK_EAST ≠ 0), k + 1),
   (decide (s &&& IMG_LINK_SOUTH ≠ 0 ∧ width ≤ k), k - width),
   (decide (s &&& IMG_LINK_NORTH ≠ 0), k + width)]

/-- Scan loop `for (j = 1; j <= size; ++j)` of one region: process the queue
of stored indices until it empties, appending newly stored pixels.  The
first argument is recursion fuel: every queue step pops one index, every
stored index is in `[0, npix)`, was unowned and is marked owned, so at most
`npix` pixels are ever appended and `2*npix + 2` units of fuel always
outlast the queue (theorem `floodAux_spec` proves this bound; the C loop
needs no fuel, it simply runs until `j` passes `size`). -/
def floodAux (width npix : ℕ) : ℕ → (ℕ → ℕ) → List ℕ → List (ℕ × Point) →
    (ℕ → ℕ) × List (ℕ × Point)
  | 0, link, _, stored => (link, stored)
  | fuel + 1, link, pending, stored =>
      match pending with
      | [] => (link, stored)
      | k :: rest =>
          let st := (neighborChecks width (link k) k).foldl (checkNbr width npix)
            (link, stored, [])
          floodAux width npix fuel st.1 (rest ++ st.2.2) st.2.1

/-- One pass of the outer raster scan of `img_segmentation_new`: a
still-unowned pixel seeds a region (macro `STORE(i)` then the scan loop);
an owned pixel is skipped. -/
def seedStep (width npix : ℕ) (st : (ℕ → ℕ) × List (List (ℕ × Point))) (i : ℕ) :
    (ℕ → ℕ) × List (List (ℕ × Point)) :=
  if st.1 i &&& IMG_LINK_OWNED = 0 then
    let p := storePoint st.1 width i
    let l1 := Function.update st.1 i (st.1 i ||| IMG_LINK_OWNED)
    let r := floodAux width npix (2 * npix + 2) l1 [i] [(i, p)]
    (r.1, st.2 ++ [r.2])
  else st

/-- Outer raster scan `for (i = 0; i < npixels; ++i)` of
`img_segmentation_new`; regions are collected in seed order. -/
def segmentRegions (width npix : ℕ) (link : ℕ → ℕ) :
    (ℕ → ℕ) × List (List (ℕ × Point)) :=
  (List.range npix).foldl (seedStep width npix) (link, [])

/-- Second pass of `img_segmentation_new`: build one `segment_t` from the
points of one region (bounding box over the stored `int16_t` coordinates,
then centre, count and derived width/height).  A region is never empty (its
seed is stored first); the `[]` case is defensive. -/
def buildSegment (pts : List Point) : Segment :=
  match pts with
  | [] => default
  | p :: rest =>
      let bb := rest.foldl
        (fun (b : ℤ × ℤ × ℤ × ℤ) q =>
          (if q.x < b.1 then q.x else b.1,
           if q.x > b.2.1 then q.x else b.2.1,
           if q.y < b.2.2.1 then q.y else b.2.2.1,
           if q.y > b.2.2.2 then q.y else b.2.2.2))
        (p.x, p.x, p.y, p.y)
      { xcen := ((bb.1 + bb.2.1 : ℤ) : ℚ) * 0.5,
        ycen := ((bb.2.2.1 + bb.2.2.2 : ℤ) : ℚ) * 0.5,
        point := pts,
        count := pts.length,
        xmin := bb.1,
        xmax := bb.2.1,
        ymin := bb.2.2.1,
        ymax := bb.2.2.2,
        width := bb.2.1 - bb.1 + 1,
        height := bb.2.2.2 - bb.2.2.1 + 1 }

/-- Function `img_segmentation_new`: dispatch on the pixel type (the ten
scalar types `IMG_TYPE_INT8 = 1` .. `IMG_TYPE_DOUBLE = 10` are supported;
complex and colour types fall into the `EINVAL` default), build the link
map (`lnk_offset = 0`, `lnk_pitch = width`, `img_pitch = stride`), extract
the regions, and assemble the segment table.  The returned object has
`nrefs = 0` (set by `allocate`). -/
def img_segmentation_new (img : ℕ → ℚ) (type : ℕ) (offset width height stride : ℕ)
    (threshold : ℚ) : Option Segmentation :=
  if 1 ≤ type ∧ type ≤ 10 then
    match build_links img offset stride (fun _ => 0) 0 width width height threshold with
    | none => none
    | some lnk =>
        let regions := (segmentRegions width (width * height) lnk).2
        some { nrefs := 0,
               segment := regions.map (fun r => buildSegment (r.map Prod.snd)),
               width := width,
               height := height }
  else none

/-- Function `img_segmentation_get_nrefs`. -/
def img_segmentation_get_nrefs (s : Segmentation) : ℤ := s.nrefs

/-- Function `img_segmentation_link`: increment the reference count. -/
def img_segmentation_link (s : Segmentation) : Segmentation :=
  { s with nrefs := s.nrefs + 1 }

/-- Function `img_segmentation_get_number`. -/
def img_segmentation_get_number (s : Segmentation) : ℕ := s.number

/-- Function `img_segmentation_select`: copy the listed segments (and their
points) into a fresh segmentation with `nrefs = 0`; `EINVAL` on an empty or
out-of-range index list. -/
def img_segmentation_select (src : Segmentation) (list : List ℤ) : Option Segmentation :=
  if list.length = 0 then none
  else if list.any (fun j => decide (j < 0 ∨ (src.number : ℤ) ≤ j)) then none
  else some { nrefs := 0,
              segment := list.map (fun j => src.segment.getD j.toNat default),
              width := src.width,
              height := src.height }

/-! ## Chaining of segments (`img_chainpool_new` and helpers)

Chainable items (struct `_chainable` overlaying `_segment` and
`_chainlink`) form a DAG allocated inside `img_chainpool_new`'s item pool.
A chain-link's cached `level`, `first` and `last` fields are exactly the
values `chainlink_insert` computes from the children, so the embedding
represents a chainable item as a tree and derives them.  A `seg` leaf
carries the index of the segment in `sgm->segment` (the C stores the
pointer `&sgm->segment[j]`; `img_chainpool_get_segments` recovers the
index by pointer subtraction).

The three mutable graph fields are derived from the list of all created
links, newest first — which is exactly the global `first`/`next` list,
since `chainlink_insert` pushes on its head:
`first_link`/`next_link` of an item is the sublist of links whose left
child is that item (also newest first, same push order), and `nparents`
counts the links having the item as left or right child. -/

/-- Member access to a segment table entry (C pointer `&sgm->segment[j]`,
always in range when produced by the builder). -/
def segAt (sgm : Segmentation) (j : ℕ) : Segment := sgm.segment.getD j default

/-- Chainable item: a segment leaf (`level = 0`) or a chain-link with two
children of equal level (`level = left.level + 1`). -/
inductive Chainable where
  | seg : ℕ → Chainable
  | chainlink : Chainable → Chainable → Chainable
deriving DecidableEq, Repr

/-- Field `level` (0 for segments, `left->level + 1` for chain-links). -/
def Chainable.level : Chainable → ℕ
  | .seg _ => 0
  | .chainlink l _ => l.level + 1

/-- Field `left_child` of a chain-link. -/
def Chainable.leftChild : Chainable → Option Chainable
  | .seg _ => none
  | .chainlink l _ => some l

/-- Field `right_child` of a chain-link. -/
def Chainable.rightChild : Chainable → Option Chainable
  | .seg _ => none
  | .chainlink _ r => some r

/-- Cached field `first`: the leftmost segment of the chain defined by the
item (macro `ENDPOINT(left, first)` in `chainlink_insert`). -/
def Chainable.first : Chainable → ℕ
  | .seg j => j
  | .chainlink l _ => l.first

/-- Cached field `last`: the rightmost segment of the chain defined by the
item (macro `ENDPOINT(right, last)` in `chainlink_insert`). -/
def Chainable.last : Chainable → ℕ
  | .seg j => j
  | .chainlink _ r => r.last

/-- List headed by `first_link` and chained by `next_link`: all created
links whose left child is the given item, newest first. -/
def firstLinks (links : List Chainable) (c : Chainable) : List Chainable :=
  links.filter (fun L => decide (L.leftChild = some c))

/-- Field `nparents`: the number of created links having the item as a
child (each insertion increments it once for each child). -/
def nparentsOf (links : List Chainable) (c : Chainable) : ℕ :=
  (links.filter (fun L => decide (L.leftChild = some c))).length +
    (links.filter (fun L => decide (L.rightChild = some c))).length

/-- Segment vector of the chain defined by a chainable item, as rebuilt by
the loop `while (chainable->level > 0) { segment_list[k++] = chainlink->first;
chainable = chainlink->right_child; }` followed by the final segment. -/
def seqOf : Chainable → List ℕ
  | .seg j => [j]
  | .chainlink l r => (Chainable.chainlink l r).first :: seqOf r

/-- Struct `short_line_`: sums of centre coordinates and heights of a list
of segments, for the incremental regression test. -/
structure ShortLine where
  sh : ℚ
  sx : ℚ
  sy : ℚ
  sxx : ℚ
  sxy : ℚ
  list : List ℕ
deriving DecidableEq, Repr

/-- Function `short_line_init`. -/
def short_line_init (sgm : Segmentation) (list : List ℕ) : ShortLine :=
  { sh := (list.map (fun k => ((segAt sgm k).height : ℚ))).sum,
    sx := (list.map (fun k => (segAt sgm k).xcen)).sum,
    sy := (list.map (fun k => (segAt sgm k).ycen)).sum,
    sxx := (list.map (fun k => (segAt sgm k).xcen * (segAt sgm k).xcen)).sum,
    sxy := (list.map (fun k => (segAt sgm k).xcen * (segAt sgm k).ycen)).sum,
    list := list }

/-- Function `fit_line`: weighted linear regression through a cloud of
points.  Returns `none` on the two C error codes (`sw <= 0`, and the
singular/vertical case `r <= 0` where the C stores `DBL_MAX` as slope);
both make every caller treat the fit as failed. -/
def fit_line (sw swx swy swxx swxy : ℚ) : Option (ℚ × ℚ × ℚ) :=
  if sw ≤ 0 then none
  else
    let q := 1 / sw
    let x := swx * q
    let y := swy * q
    let r := swxx * q - x * x
    if r ≤ 0 then none
    else some (x, y, (swxy * q - x * y) / r)

/-- Function `short_line_accept`: whether the candidate segment is aligned
with the segments of the short line (regression over all of them succeeds,
slope within bound, and every residual within `aatol + artol * hm`). -/
def short_line_accept (sgm : Segmentation) (line : ShortLine) (j : ℕ)
    (slope aatol artol : ℚ) : Bool :=
  let x := (segAt sgm j).xcen
  let y := (segAt sgm j).ycen
  let h := ((segAt sgm j).height : ℚ)
  let np1 := (line.list.length : ℚ) + 1
  match fit_line np1 (line.sx + x) (line.sy + y) (line.sxx + x * x) (line.sxy + x * y) with
  | none => false
  | some (xm, ym, a) =>
      if |a| > slope then false
      else
        let hm := (line.sh + h) / np1
        let threshold := aatol + artol * hm
        if |a * (x - xm) - (y - ym)| > threshold then false
        else line.list.all (fun k =>
          |a * ((segAt sgm k).xcen - xm) - ((segAt sgm k).ycen - ym)| ≤ threshold)

/-- Bounding box of a segment under a linear transform (struct `_bbox`). -/
structure Bbox where
  xmin : ℚ
  xmax : ℚ
  ymin : ℚ
  ymax : ℚ
deriving DecidableEq, Repr

/-- Function `get_bbox`: transformed bounding box of a segment.  The first
point always seeds the extrema; later points contribute only when their
link mask is not the full `E|W|N|S` (interior points are skipped). -/
def get_bbox (s : Segment) (a : ℚ × ℚ × ℚ × ℚ) : Bbox :=
  match s.point with
  | [] => { xmin := 0, xmax := 0, ymin := 0, ymax := 0 }
  | p :: rest =>
      let x0 := a.1 * (p.x : ℚ) + a.2.1 * (p.y : ℚ)
      let y0 := a.2.2.1 * (p.x : ℚ) + a.2.2.2 * (p.y : ℚ)
      let bb := rest.foldl
        (fun (b : Bbox) q =>
          if q.link &&& (IMG_LINK_EAST ||| IMG_LINK_WEST ||| IMG_LINK_NORTH ||| IMG_LINK_SOUTH)
              ≠ (IMG_LINK_EAST ||| IMG_LINK_WEST ||| IMG_LINK_NORTH ||| IMG_LINK_SOUTH) then
            let x := a.1 * (q.x : ℚ) + a.2.1 * (q.y : ℚ)
            let y := a.2.2.1 * (q.x : ℚ) + a.2.2.2 * (q.y : ℚ)
            { xmin := if x < b.xmin then x else b.xmin,
              xmax := if x > b.xmax then x else b.xmax,
              ymin := if y < b.ymin then y else b.ymin,
              ymax := if y > b.ymax then y else b.ymax }
          else b)
        { xmin := x0, xmax := x0, ymin := y0, ymax := y0 }
      bb

/-- Struct `_chain`: an emitted chain with its fitted shears, bounding box,
affine matrix and dense segment vector (indices into `sgm->segment`). -/
structure Chain where
  vertical_shear : ℚ
  horizontal_shear : ℚ
  xmin : ℚ
  xmax : ℚ
  ymin : ℚ
  ymax : ℚ
  a0 : ℚ
  a1 : ℚ
  a2 : ℚ
  a3 : ℚ
  length : ℕ
  segment : List ℕ
deriving DecidableEq, Repr

/-- One pass of the loop body of `fit_vertical_shear`: the summed centre
coordinates and the enclosing box, either from the raw segment fields
(first iteration) or from the transformed boxes (later iterations). -/
def vshearSums (sgm : Segmentation) (segs : List ℕ) (iter : ℕ) (a : ℚ × ℚ × ℚ × ℚ) :
    (ℚ × ℚ × ℚ × ℚ) × (ℚ × ℚ × ℚ × ℚ) :=
  if iter = 0 then
    ((((segs.map (fun k => ((segAt sgm k).xmin : ℚ))).min?.getD 0),
      ((segs.map (fun k => ((segAt sgm k).xmax : ℚ))).max?.getD 0),
      ((segs.map (fun k => ((segAt sgm k).ymin : ℚ))).min?.getD 0),
      ((segs.map (fun k => ((segAt sgm k).ymax : ℚ))).max?.getD 0)),
     (((segs.map (fun k => (segAt sgm k).xcen)).sum),
      ((segs.map (fun k => (segAt sgm k).ycen)).sum),
      ((segs.map (fun k => (segAt sgm k).xcen * (segAt sgm k).xcen)).sum),
      ((segs.map (fun k => (segAt sgm k).xcen * (segAt sgm k).ycen)).sum)))
  else
    let boxes := segs.map (fun k => get_bbox (segAt sgm k) a)
    ((((boxes.map Bbox.xmin).min?.getD 0),
      ((boxes.map Bbox.xmax).max?.getD 0),
      ((boxes.map Bbox.ymin).min?.getD 0),
      ((boxes.map Bbox.ymax).max?.getD 0)),
     (((boxes.map (fun b => 0.5 * (b.xmax + b.xmin))).sum),
      ((boxes.map (fun b => 0.5 * (b.ymax + b.ymin))).sum),
      ((boxes.map (fun b => 0.5 * (b.xmax + b.xmin) * (0.5 * (b.xmax + b.xmin)))).sum),
      ((boxes.map (fun b => 0.5 * (b.xmax + b.xmin) * (0.5 * (b.ymax + b.ymin)))).sum)))

/-- Iteration of `fit_vertical_shear` (`maxiter = 10`; at most eleven loop
passes run, `iter = 0 .. 10`, so eleven units of fuel make the recursion
structural without changing behaviour). -/
def fvsAux (sgm : Segmentation) (segs : List ℕ) (prec : ℚ) :
    ℕ → ℕ → ℚ → (ℚ × ℚ × ℚ × ℚ) → Option (ℚ × ℚ × ℚ × ℚ × ℚ)
  | 0, _, _, _ => none
  | fuel + 1, iter, vshear, a =>
      let s := vshearSums sgm segs iter a
      match fit_line (segs.length : ℚ) s.2.1 s.2.2.1 s.2.2.2.1 s.2.2.2.2 with
      | none => none
      | some (_, _, slope) =>
          let tol := prec / (1 + s.1.2.1 - s.1.1)
          let convergence := decide (1 ≤ iter) && decide (|slope| ≤ tol)
          let vshear' := vshear + slope
          let a' := (a.1, a.2.1, -vshear', a.2.2.2)
          if convergence then some (vshear', s.1.1, s.1.2.1, s.1.2.2.1, s.1.2.2.2)
          else if iter + 1 > 10 then none
          else fvsAux sgm segs prec fuel (iter + 1) vshear' a'

/-- Function `fit_vertical_shear`: iteratively regress the transformed box
centres, accumulating the slope into `vertical_shear` (`a[2] = -shear`);
converges when `|slope| <= prec/(1 + xmax - xmin)` after at least one
iteration, storing the current box into the chain; fails (discarding the
chain) on a singular regression or after ten iterations. -/
def fit_vertical_shear (sgm : Segmentation) (chain : Chain) (prec : ℚ) : Option Chain :=
  match fvsAux sgm chain.segment prec 11 0 chain.vertical_shear
      (chain.a0, chain.a1, chain.a2, chain.a3) with
  | none => none
  | some (vshear, xmin, xmax, ymin, ymax) =>
      some { chain with
        vertical_shear := vshear,
        a2 := -vshear,
        xmin := xmin, xmax := xmax, ymin := ymin, ymax := ymax }

/-- Candidate shear of iteration `iter` of the grid search of
`fit_horizontal_shear`: `+step*(iter/2)` for even `iter`,
`-step*((iter+1)/2)` for odd `iter`. -/
def shearAt (step : ℚ) (iter : ℕ) : ℚ :=
  if iter % 2 = 0 then step * ((iter / 2 : ℕ) : ℚ)
  else -(step * (((iter + 1) / 2 : ℕ) : ℚ))

/-- Total inter-segment spacing of a chain under the transform `a` with
`a[1] = -shear`: the sum over consecutive segments of
`bbox.xmin - prev.xmax` of the transformed boxes. -/
def spacingOf (sgm : Segmentation) (segs : List ℕ) (a : ℚ × ℚ × ℚ × ℚ) (shear : ℚ) : ℚ :=
  let boxes := segs.map (fun k => get_bbox (segAt sgm k) (a.1, -shear, a.2.2.1, a.2.2.2))
  let r : ℚ × ℚ :=
    match boxes with
    | [] => (0, 0)
    | b :: rest => rest.foldl (fun (st : ℚ × ℚ) (bb : Bbox) =>
        (st.1 + (bb.xmin - st.2), bb.xmax)) ((0 : ℚ), b.xmax)
  r.1

/-- Candidate shears enumerated by `fit_horizontal_shear`, in program
order: `0, -step, +step, -2*step, +2*step, ...` for
`iter = 0 .. maxiter` where `maxiter = 2*ceil(bound/step)`. -/
def candidateShears (step bound : ℚ) : List ℚ :=
  (List.range ((2 * ⌈bound / step⌉ + 1).toNat)).map (shearAt step)

/-- Local `step` of `fit_horizontal_shear`: a displacement of a quarter
pixel, `0.25/height` with `height = 1 + chain->ymax - chain->ymin`. -/
def fhs_step (chain : Chain) : ℚ := 0.25 / (1 + chain.ymax - chain.ymin)

/-- Local `bound` of `fit_horizontal_shear`: half the mean segment width
over the height, `0.5*width/height` with
`width = (1 + chain->xmax - chain->xmin)/length`. -/
def fhs_bound (chain : Chain) : ℚ :=
  0.5 * ((1 + chain.xmax - chain.xmin) / (chain.length : ℚ)) / (1 + chain.ymax - chain.ymin)

/-- Selection loop of `fit_horizontal_shear`: keep the candidate whenever
`iter == 0 || spacing > best_spacing`, so the first candidate attaining
the maximum spacing wins. -/
def bestShear (sgm : Segmentation) (segs : List ℕ) (a : ℚ × ℚ × ℚ × ℚ)
    (cands : List ℚ) : ℚ × ℚ :=
  (cands.enum.foldl
    (fun (best : ℚ × ℚ) si =>
      if si.1 = 0 ∨ spacingOf sgm segs a si.2 > best.2
      then (si.2, spacingOf sgm segs a si.2) else best)
    (0, 0))

/-- Proof vocabulary: the selection loop of `bestShear` with the
`iter == 0` special case unrolled (after iteration 0 the index test never
retriggers, so the loop keeps the first candidate of maximal spacing);
`bestShear_eq_pickBest` connects it to the program's fold. -/
def pickBest (f : ℚ → ℚ) : ℚ × ℚ → List ℚ → ℚ × ℚ
  | b, [] => b
  | b, c :: cs => pickBest f (if f c > b.2 then (c, f c) else b) cs

/-- Function `fit_horizontal_shear`: exhaustive grid search for the shear
maximising the total spacing (`step = 0.25/height`, `bound =
0.5*width/height` with the mean segment width), then recompute the chain's
bounding box under the chosen transform.  Always returns (the C function
always returns `SUCCESS`). -/
def fit_horizontal_shear (sgm : Segmentation) (chain : Chain) (_prec : ℚ) : Chain :=
  let a := (chain.a0, chain.a1, chain.a2, chain.a3)
  let best := bestShear sgm chain.segment a (candidateShears (fhs_step chain) (fhs_bound chain))
  let a' := (chain.a0, -best.1, chain.a2, chain.a3)
  let boxes := chain.segment.map (fun k => get_bbox (segAt sgm k) a')
  { chain with
    horizontal_shear := best.1,
    a1 := -best.1,
    xmin := (boxes.map Bbox.xmin).min?.getD 0,
    xmax := (boxes.map Bbox.xmax).max?.getD 0,
    ymin := (boxes.map Bbox.ymin).min?.getD 0,
    ymax := (boxes.map Bbox.ymax).max?.getD 0 }

/-! ## Heap sort (heapsort.h, instantiated with key `(obj)->xcen`) -/

/-- Sift phase of the heap sort: the inner `while ((j = 2*i + 1) <= l)`
loop followed by `obj[i] = tmp`.  Fuel: the loop index `i` at least
doubles each pass (`i` becomes `j >= 2*i + 1`) and stays at most `l`, so
`l + 2` units always outlast the loop. -/
def siftDown (key : ℕ → ℚ) : ℕ → Array ℕ → ℚ → ℕ → ℕ → ℕ → Array ℕ
  | 0, a, _, tmp, i, _ => a.setD i tmp
  | fuel + 1, a, tmpKey, tmp, i, l =>
      let j := 2 * i + 1
      if j ≤ l then
        let j' := if j < l ∧ key (a.getD j 0) < key (a.getD (j + 1) 0) then j + 1 else j
        if key (a.getD j' 0) ≤ tmpKey then a.setD i tmp
        else siftDown key fuel (a.setD i (a.getD j' 0)) tmpKey tmp j' l
      else a.setD i tmp

/-- Outer `for (;;)` loop of the heap sort: heap construction while
`k > 0`, then extraction while `l > 0`.  Fuel: every pass decrements `k`
or `l` (returning when `l` reaches 0), so `k + l + 1` units always
outlast the loop. -/
def heapLoop (key : ℕ → ℚ) : ℕ → Array ℕ → ℕ → ℕ → Array ℕ
  | 0, a, _, _ => a
  | fuel + 1, a, k, l =>
      if k > 0 then
        let tmp := a.getD (k - 1) 0
        heapLoop key fuel (siftDown key (l + 2) a (key tmp) tmp (k - 1) l) (k - 1) l
      else
        let tmp := a.getD l 0
        let a1 := a.setD l (a.getD 0 0)
        if l - 1 = 0 then a1.setD 0 tmp
        else heapLoop key fuel (siftDown key (l + 1) a1 (key tmp) tmp 0 (l - 1)) k (l - 1)

/-- Function `sort_segments`: in-place heap sort of the segment pointer
array by ascending `xcen`. -/
def sort_segments (key : ℕ → ℚ) (a : Array ℕ) : Array ℕ :=
  if a.size < 2 then a else heapLoop key (a.size / 2 + a.size) a (a.size / 2) (a.size - 1)

/-! ## `img_chainpool_new` -/

/-- Tuning scalars of `img_chainpool_new` after the clamping at the top of
the function (`srtol` into [0,1], the others to be non-negative, and
`drmin <= drmax` by swapping). -/
structure ChainParams where
  satol : ℚ
  srtol : ℚ
  drmin : ℚ
  drmax : ℚ
  slope : ℚ
  aatol : ℚ
  artol : ℚ
  prec : ℚ
deriving DecidableEq, Repr

/-- Argument check/fix block of `img_chainpool_new`. -/
def clampParams (satol srtol drmin drmax slope aatol artol prec : ℚ) : ChainParams :=
  let srtol := if srtol < 0 then 0 else srtol
  let srtol := if srtol > 1 then 1 else srtol
  let satol := if satol < 0 then 0 else satol
  let drmin := if drmin < 0 then 0 else drmin
  let drmax := if drmax < 0 then 0 else drmax
  let p := if drmax < drmin then (drmax, drmin) else (drmin, drmax)
  let slope := if slope < 0 then 0 else slope
  let aatol := if aatol < 0 then 0 else aatol
  let artol := if artol < 0 then 0 else artol
  let prec := if prec < 0 then 0 else prec
  { satol := satol, srtol := srtol, drmin := p.1, drmax := p.2,
    slope := slope, aatol := aatol, artol := artol, prec := prec }

/-- Derived scalar `sa = 1 + 2*satol`. -/
def ChainParams.sa (p : ChainParams) : ℚ := 1 + 2 * p.satol

/-- Derived scalar `sq = 2 - srtol`. -/
def ChainParams.sq (p : ChainParams) : ℚ := 2 - p.srtol

/-- Derived scalar `sr = 2 + srtol`. -/
def ChainParams.sr (p : ChainParams) : ℚ := 2 + p.srtol

/-- Derived scalar `rmin = 0.5*drmin`. -/
def ChainParams.rmin (p : ChainParams) : ℚ := 0.5 * p.drmin

/-- Derived scalar `rmax = 0.5*drmax`. -/
def ChainParams.rmax (p : ChainParams) : ℚ := 0.5 * p.drmax

/-- The level-1 admissibility test of the main pair loop of
`img_chainpool_new` (with `left` the earlier segment in x order): the
next-character x bound, the exclusive height range, the slope bound, and
the two-sided horizontal spacing bounds. -/
def level1_admissible (sgm : Segmentation) (p : ChainParams) (jl jr : ℕ) : Prop :=
  let left := segAt sgm jl
  let right := segAt sgm jr
  let h0 : ℚ := ((left.height : ℤ) : ℚ)
  let w0 : ℚ := ((left.width : ℤ) : ℚ)
  let hmin := (p.sq * h0 - p.sa) / p.sr
  let hmax := (p.sr * h0 + p.sa) / p.sq
  let h1 : ℚ := ((right.height : ℤ) : ℚ)
  let w1 : ℚ := ((right.width : ℤ) : ℚ)
  right.xcen < left.xcen + p.rmax * (h0 + hmax) ∧
  hmin < h1 ∧ h1 < hmax ∧
  |right.ycen - left.ycen| ≤ p.slope * |right.xcen - left.xcen| ∧
  1 + p.rmin * (w0 + w1) ≤ right.xcen - left.xcen ∧
  right.xcen - left.xcen ≤ p.rmax * (h0 + h1)

/-- Redundancy pruning: the candidate `right` is skipped when the short
line through `{left, right}` accepts the `last` segment of an existing
link out of `left`. -/
def level1_redundant (sgm : Segmentation) (p : ChainParams)
    (links : List Chainable) (jl jr : ℕ) : Bool :=
  let line := short_line_init sgm [jl, jr]
  (firstLinks links (Chainable.seg jl)).any
    (fun L => short_line_accept sgm line L.last p.slope p.aatol p.artol)

/-- Inner loop `for (jright = jleft + 1; jright < nsegments; ++jright)` of
the level-1 pair scan, with the early `break` once `xcen` exceeds the
bound, the `continue` conditions of the admissibility test, and the
redundancy pruning; each accepted pair allocates a level-1 chain-link
(pushed on the global list, `count` incremented).  Fuel: `jr` increases by
one per pass and the loop ends at `n`, so `n` units always outlast it. -/
def level1Inner (sgm : Segmentation) (p : ChainParams) (sl : Array ℕ) (n jl : ℕ) :
    ℕ → ℕ → List Chainable × ℕ → List Chainable × ℕ
  | 0, _, st => st
  | fuel + 1, jr, st =>
    if jr < n then
      let left := segAt sgm (sl.getD jl 0)
      let right := segAt sgm (sl.getD jr 0)
      let h0 : ℚ := ((left.height : ℤ) : ℚ)
      let hmax := (p.sr * h0 + p.sa) / p.sq
      if right.xcen ≥ left.xcen + p.rmax * (h0 + hmax) then st
      else
        let hmin := (p.sq * h0 - p.sa) / p.sr
        let h1 : ℚ := ((right.height : ℤ) : ℚ)
        let st' :=
          if h1 ≤ hmin ∨ h1 ≥ hmax then st
          else if |right.ycen - left.ycen| > p.slope * |right.xcen - left.xcen| then st
          else if right.xcen - left.xcen < 1 + p.rmin * (((left.width : ℤ) : ℚ) + ((right.width : ℤ) : ℚ)) ∨
              right.xcen - left.xcen > p.rmax * (h0 + h1) then st
          else if level1_redundant sgm p st.1 (sl.getD jl 0) (sl.getD jr 0) then st
          else (Chainable.chainlink (Chainable.seg (sl.getD jl 0)) (Chainable.seg (sl.getD jr 0)) :: st.1,
                st.2 + 1)
        level1Inner sgm p sl n jl fuel (jr + 1) st'
    else st

/-- Outer loop `for (jleft = 0; jleft < nsegments; ++jleft)` of the
level-1 pair scan. -/
def level1Phase (sgm : Segmentation) (p : ChainParams) (sl : Array ℕ) (n : ℕ) :
    List Chainable × ℕ :=
  (List.range n).foldl (fun st jl => level1Inner sgm p sl n jl n (jl + 1) st) ([], 0)

/-- Processing of one `top` link of the current level: scan the links
out of `top->right_child`; each extension whose `last` segment is aligned
with `top`'s segment vector allocates a link one level up. -/
def sweepTop (sgm : Segmentation) (p : ChainParams) (st : List Chainable × ℕ)
    (top : Chainable) : List Chainable × ℕ :=
  match top.rightChild with
  | none => st
  | some rc =>
      let line := short_line_init sgm (seqOf top)
      (firstLinks st.1 rc).foldl
        (fun (st' : List Chainable × ℕ) ext =>
          if short_line_accept sgm line ext.last p.slope p.aatol p.artol then
            (Chainable.chainlink top ext :: st'.1, st'.2 + 1)
          else st')
        st

/-- One pass of the `while (count > 0)` loop: process every link at the
level of the head of the global list (the list prefix of that level),
returning the grown list and the number of links created. -/
def sweep (sgm : Segmentation) (p : ChainParams) (links : List Chainable) :
    List Chainable × ℕ :=
  match links with
  | [] => ([], 0)
  | top0 :: _ =>
      (links.takeWhile (fun L => decide (L.level = top0.level))).foldl
        (sweepTop sgm p) (links, 0)

/-- Loop `while (count > 0)` of `img_chainpool_new`.  Each productive pass
only creates links one level above the head of the list, and a link at
level `L` spans `L + 1` distinct segments, so the number of passes is at
most the number of segments; the fuel `nsegments + 1` therefore never
runs out on the inputs the C code meets, and the recursion is structural. -/
def sweepLoop (sgm : Segmentation) (p : ChainParams) :
    ℕ → ℕ → List Chainable → List Chainable
  | 0, _, links => links
  | fuel + 1, count, links =>
      if count > 0 then
        let r := sweep sgm p links
        sweepLoop sgm p fuel r.2 r.1
      else links

/-- Emission scan of `img_chainpool_new`: walk the global list (newest,
hence highest-level, first), stopping at the first link of length
`level + 1 < lmin`, and keep the links with no parents (the maximal
chains).  Both passes of the C code traverse exactly this sequence. -/
def chain_candidates (lmin : ℤ) (links : List Chainable) : List Chainable :=
  (links.takeWhile (fun t => decide (lmin ≤ (t.level : ℤ) + 1))).filter
    (fun t => decide (nparentsOf links t = 0))

/-- Chain record as initialised in pass 2 (identity affine, zero shears)
before the fits. -/
def initChain (top : Chainable) : Chain :=
  { vertical_shear := 0, horizontal_shear := 0,
    xmin := 0, xmax := 0, ymin := 0, ymax := 0,
    a0 := 1, a1 := 0, a2 := 0, a3 := 1,
    length := (seqOf top).length, segment := seqOf top }

/-- Fitting of one emitted chain: vertical then horizontal shear; the
chain is discarded (`none`) when the vertical fit fails. -/
def fit_chain (sgm : Segmentation) (prec : ℚ) (top : Chainable) : Option Chain :=
  (fit_vertical_shear sgm (initChain top) prec).map
    (fun ch => fit_horizontal_shear sgm ch prec)

/-- Struct `_img_chainpool`: the pool of chains with its reference to the
segmentation. -/
structure Chainpool where
  segmentation : Segmentation
  chain : List Chain
deriving DecidableEq, Repr

/-- Field `chn->nchains`. -/
def Chainpool.nchains (c : Chainpool) : ℕ := c.chain.length

/-- Chain-link graph built by `img_chainpool_new` before emission: sort
the segment references by `xcen`, create the level-1 links, then extend
them level by level until no link is created. -/
def chainLinksOf (sgm : Segmentation) (p : ChainParams) : List Chainable :=
  let n := sgm.number
  let sl := sort_segments (fun j => (segAt sgm j).xcen) (Array.range n)
  let lc := level1Phase sgm p sl n
  sweepLoop sgm p (n + 1) lc.2 lc.1

/-- The chains counted by pass 1 of the emission loop (and fitted by
pass 2): maximal links of length at least `lmin` in emission order. -/
def poolCandidates (sgm : Segmentation) (p : ChainParams) (lmin : ℤ) : List Chainable :=
  chain_candidates lmin (chainLinksOf sgm p)

/-- Function `img_chainpool_new`: clamp the tuning scalars, sort the
segments by `xcen`, create the level-1 links, extend them level by level,
and emit the maximal chains of length at least `lmin` whose shear fits
succeed.  Fails (`goto failure`, returning `NULL`) when no candidate
chain exists; chains dropped by the fitter do not fail the builder.  The
`lmax` argument is accepted (and documented as the maximum chain length)
but never read by the C function. -/
def img_chainpool_new (sgm : Segmentation) (satol srtol drmin drmax slope aatol artol prec : ℚ)
    (lmin lmax : ℤ) : Option Chainpool :=
  if (poolCandidates sgm (clampParams satol srtol drmin drmax slope aatol artol prec)
      lmin).length = 0 then none
  else some { segmentation := img_segmentation_link sgm,
              chain := (poolCandidates sgm
                  (clampParams satol srtol drmin drmax slope aatol artol prec) lmin).filterMap
                (fit_chain sgm (clampParams satol srtol drmin drmax slope aatol artol prec).prec) }

/-- Function `img_chainpool_get_number`. -/
def img_chainpool_get_number (c : Chainpool) : ℕ := c.nchains

/-! ## Statement vocabulary -/

/-- The raster-order list of all pixel positions of a `width` by `height`
image, as exact integers. -/
def allPixelPositions (width height : ℕ) : List (ℤ × ℤ) :=
  (List.range (width * height)).map (fun i => (((i % width : ℕ) : ℤ), ((i / width : ℕ) : ℤ)))

/-- Concatenation, in order, of the position lists of all segments of a
segmentation (the flat point buffer `ws->point`, projected to positions). -/
def segmentationPositions (s : Segmentation) : List (ℤ × ℤ) :=
  (s.segment.map (fun g => g.point.map (fun p => (p.x, p.y)))).flatten

/-- Pixel `j` of the link map is not yet owned by a segment (bit
`IMG_LINK_OWNED` clear). -/
def unownedAt (l : ℕ → ℕ) (j : ℕ) : Prop := l j &&& IMG_LINK_OWNED = 0

/-- A stored (flat index, point) pair whose `int16_t` coordinates are the
raster coordinates of the index, wrapped by the `int16_t` conversion. -/
def coordOK (width : ℕ) (ip : ℕ × Point) : Prop :=
  ip.2.x = toInt16 ((ip.1 % width : ℕ) : ℤ) ∧ ip.2.y = toInt16 ((ip.1 / width : ℕ) : ℤ)

/-- The raster-order list of all pixel positions, as the `int16_t` pair
actually stored for each pixel (coordinates wrapped modulo `2^16`). -/
def wrappedPixelPositions (width height : ℕ) : List (ℤ × ℤ) :=
  (List.range (width * height)).map
    (fun i => (toInt16 ((i % width : ℕ) : ℤ), toInt16 ((i / width : ℕ) : ℤ)))

/-- Modelled from the spec: the candidate enumeration order asserted in
section 4.5, `0, +step, -step, +2*step, -2*step, ...` (positive shear
first at each magnitude), with the same candidate count as the program's
grid search; used only to compare against `candidateShears`. -/
def specShearAt (step : ℚ) (iter : ℕ) : ℚ :=
  if iter % 2 = 0 then -(step * ((iter / 2 : ℕ) : ℚ))
  else step * (((iter + 1) / 2 : ℕ) : ℚ)

/-- Modelled from the spec: the full candidate list in the order of
section 4.5. -/
def specCandidateShears (step bound : ℚ) : List ℚ :=
  (List.range ((2 * ⌈bound / step⌉ + 1).toNat)).map (specShearAt step)

/-! ## Concrete instances used by counterexamples and witnesses -/

/-- The 4-by-1 `U8` image `[10, 10, 20, 20]` of the spec's third concrete
scenario. -/
def pix4 : ℕ → ℚ := fun i => (([10, 10, 20, 20] : List ℚ).getD i 0)

/-- A constant image (every sample 5). -/
def pix5 : ℕ → ℚ := fun _ => 5

/-- A one-pixel segment at `(x, 0)` with an empty link mask, as the
builder produces for an isolated pixel. -/
def mkSeg1 (x : ℤ) : Segment :=
  { xcen := (x : ℚ), ycen := 0, point := [{ link := 0, x := x, y := 0 }], count := 1,
    xmin := x, xmax := x, ymin := 0, ymax := 0, width := 1, height := 1 }

/-- A segmentation with three unit segments at `x = 0, 2, 4` on one row
(as produced for a 5-by-1 image with distinct-valued separators). -/
def sgm3 : Segmentation :=
  { nrefs := 0, segment := [mkSeg1 0, mkSeg1 2, mkSeg1 4], width := 5, height := 1 }

/-- A segmentation with a single segment (no pair of segments exists, so
the chain-pool builder finds no candidate chain). -/
def sgm1 : Segmentation :=
  { nrefs := 0, segment := [mkSeg1 0], width := 1, height := 1 }

/-- The chain over `sgm3` as it stands when `fit_horizontal_shear` is
entered: vertical fit converged with zero shear, bounding box
`[0,4] x [0,0]`, identity transform. -/
def sgm3chain : Chain :=
  { vertical_shear := 0, horizontal_shear := 0,
    xmin := 0, xmax := 4, ymin := 0, ymax := 0,
    a0 := 1, a1 := 0, a2 := 0, a3 := 1,
    length := 3, segment := [0, 1, 2] }

/-- The segmentation the builder produces for the 3-by-1 constant image
(`pix5`, threshold 0): one segment holding the whole row. -/
def sgmRow3 : Segmentation :=
  { nrefs := 0,
    segment := [{ xcen := 1, ycen := 0,
                  point := [{ link := 1, x := 0, y := 0 },
                            { link := 3, x := 1, y := 0 },
                            { link := 2, x := 2, y := 0 }],
                  count := 3, xmin := 0, xmax := 2, ymin := 0, ymax := 0,
                  width := 3, height := 1 }],
    width := 3, height := 1 }

/-- The segmentation the builder produces for the 2-by-2 constant image
(`pix5`, threshold 0): one segment holding all four pixels (flood order
`(0,0), (1,0), (1,1), (0,1)`). -/
def sgm22 : Segmentation :=
  { nrefs := 0,
    segment := [{ xcen := 1/2, ycen := 1/2,
                  point := [{ link := 1, x := 0, y := 0 },
                            { link := 6, x := 1, y := 0 },
                            { link := 10, x := 1, y := 1 },
                            { link := 1, x := 0, y := 1 }],
                  count := 4, xmin := 0, xmax := 1, ymin := 0, ymax := 1,
                  width := 2, height := 2 }],
    width := 2, height := 2 }

/-- The link map built for the 32769-by-1 constant image (threshold 0
takes the equality branch of `BUILD_LINKS`). -/
def wideLnk : ℕ → ℕ :=
  build_links_loop (fun a b => decide (a = b)) pix5 0 32769 0 32769 32769 1 (fun _ => 0)

/-- The segmentation the builder produces for the 32769-by-1 constant
image (never evaluated concretely; pixel 32768 gets stored abscissa
`toInt16 32768 = -32768`). -/
def wideSgm : Segmentation :=
  { nrefs := 0,
    segment := (segmentRegions 32769 (32769 * 1) wideLnk).2.map
      (fun r => buildSegment (r.map Prod.snd)),
    width := 32769, height := 1 }

/-! ## Theorems for the claims -/

/-- Claim C1 (code bug): `img_chainpool_new` documents `lmax` as the
maximum chain length but never reads it.  On the three-segment
segmentation `sgm3` with `lmin = lmax = 2`, the returned pool contains a
chain of length 3, violating `L <= lmax`. -/
theorem C1_lmax_exceeded :
    (img_chainpool_new sgm3 2 (5/100) (4/10) (25/10) (3/10) 2 (5/100) (5/100) 2 2).map
      (fun pool => pool.chain.map Chain.length) = some [3] ∧ ¬ ((3 : ℤ) ≤ 2) :=
  ⟨by with_unfolding_all decide, by decide⟩

/-- Claim C2 (counterexample): on the valid one-segment segmentation
`sgm1` (and default tuning), no candidate chain exists and
`img_chainpool_new` returns `NULL` (the `nchains <= 0` path jumps to
`failure`), not a success with zero chains. -/
theorem C2_counterexample_no_candidates :
    img_chainpool_new sgm1 2 (5/100) (4/10) (25/10) (3/10) 2 (5/100) (5/100) 3 10 = none ∧
    sgm1.number = 1 :=
  ⟨by with_unfolding_all decide, rfl⟩

/-- Claim C2 (amended): the builder succeeds iff at least one candidate
chain (maximal, length at least `lmin`) exists; in that case the returned
pool holds exactly the candidates whose shear fit succeeded — chains
dropped by the fitter never fail the builder, so the pool may hold fewer
chains than candidates (even zero is impossible only because the C code
has already checked the candidate count, not the fit results). -/
theorem C2_success_iff_candidates (sgm : Segmentation)
    (satol srtol drmin drmax slope aatol artol prec : ℚ) (lmin lmax : ℤ) :
    (img_chainpool_new sgm satol srtol drmin drmax slope aatol artol prec lmin lmax = none ↔
      poolCandidates sgm (clampParams satol srtol drmin drmax slope aatol artol prec) lmin = []) ∧
    (poolCandidates sgm (clampParams satol srtol drmin drmax slope aatol artol prec) lmin ≠ [] →
      img_chainpool_new sgm satol srtol drmin drmax slope aatol artol prec lmin lmax =
        some { segmentation := img_segmentation_link sgm,
               chain := (poolCandidates sgm
                   (clampParams satol srtol drmin drmax slope aatol artol prec) lmin).filterMap
                 (fit_chain sgm (clampParams satol srtol drmin drmax slope aatol artol prec).prec) }) := by
  unfold img_chainpool_new
  constructor
  · by_cases h : (poolCandidates sgm
        (clampParams satol srtol drmin drmax slope aatol artol prec) lmin).length = 0
    · rw [if_pos h]
      simp only [List.length_eq_zero] at h
      simp [h]
    · rw [if_neg h]
      simp only [List.length_eq_zero] at h
      simp [h]
  · intro h
    rw [if_neg (by simpa [List.length_eq_zero] using h)]

/-- Claim C2 witness: on `sgm3` a candidate exists and the theorem yields
the concrete successful pool. -/
theorem C2_success_iff_candidates_witness :
    img_chainpool_new sgm3 2 (5/100) (4/10) (25/10) (3/10) 2 (5/100) (5/100) 3 10 =
      some { segmentation := img_segmentation_link sgm3,
             chain := (poolCandidates sgm3
                 (clampParams 2 (5/100) (4/10) (25/10) (3/10) 2 (5/100) (5/100)) 3).filterMap
               (fit_chain sgm3 (clampParams 2 (5/100) (4/10) (25/10) (3/10) 2 (5/100) (5/100)).prec) } :=
  (C2_success_iff_candidates sgm3 2 (5/100) (4/10) (25/10) (3/10) 2 (5/100) (5/100) 3 10).2
    (by with_unfolding_all decide)

/-- Claim C3 (counterexample): for the empty image (`width = height = 0`)
`img_segmentation_new` returns `NULL` (the link builder reports failure on
non-positive dimensions), not a valid zero-segment handle. -/
theorem C3_counterexample_empty_image :
    img_segmentation_new pix5 2 0 0 0 0 0 = none :=
  by with_unfolding_all decide

/-- Claim C3 (amended): for every image, pixel type, offset, stride and
threshold, `img_segmentation_new` on a `0 x 0` image fails (returns
`NULL`), because `BUILD_LINKS` rejects non-positive dimensions; hence no
segmentation — and so no chain pool — exists for an empty image. -/
theorem C3_empty_image_fails (img : ℕ → ℚ) (type offset stride : ℕ) (t : ℚ) :
    img_segmentation_new img type offset 0 0 stride t = none := by
  unfold img_segmentation_new
  split
  · have hb : build_links img offset stride (fun _ => 0) 0 0 0 0 t = none := by
      unfold build_links
      split
      · rfl
      · rw [if_pos (Or.inl rfl)]
    rw [hb]
  · rfl

/-- Claim C4 (counterexample): the 4-by-1 U8 image `[10, 10, 20, 20]`
with `threshold = 5` yields two segments, not one: the middle neighbours
differ by 10 > 5. -/
theorem C4_counterexample_threshold5 :
    (img_segmentation_new pix4 2 0 4 1 4 5).map (fun s => s.segment.length) = some 2 ∧
    (2 : ℕ) ≠ 1 :=
  ⟨by with_unfolding_all decide, by decide⟩

/-- Claim C4 (amended): with `threshold = 5` the image `[10, 10, 20, 20]`
segments into two two-point segments `{x = 0..1}` and `{x = 2..3}` (just
as with `threshold = 0`), since `|10 - 20| = 10 > 5`; a single segment
would need `threshold >= 10`. -/
theorem C4_two_segments_both_thresholds :
    ((img_segmentation_new pix4 2 0 4 1 4 5).map
        (fun s => s.segment.map (fun g => (g.count, g.xmin, g.xmax, g.ymin, g.ymax))) =
      some [(2, 0, 1, 0, 0), (2, 2, 3, 0, 0)]) ∧
    ((img_segmentation_new pix4 2 0 4 1 4 5).map
        (fun s => s.segment.map (fun g => g.point.map (fun p => (p.x, p.y)))) =
      some [[(0, 0), (1, 0)], [(2, 0), (3, 0)]]) ∧
    ((img_segmentation_new pix4 2 0 4 1 4 0).map
        (fun s => s.segment.map (fun g => (g.count, g.xmin, g.xmax, g.ymin, g.ymax))) =
      some [(2, 0, 1, 0, 0), (2, 2, 3, 0, 0)]) ∧
    ((img_segmentation_new pix4 2 0 4 1 4 0).map
        (fun s => s.segment.map (fun g => g.point.map (fun p => (p.x, p.y)))) =
      some [[(0, 0), (1, 0)], [(2, 0), (3, 0)]]) ∧
    (img_segmentation_new pix4 2 0 4 1 4 10).map (fun s => s.segment.length) = some 1 :=
  ⟨by with_unfolding_all decide, by with_unfolding_all decide,
   by with_unfolding_all decide, by with_unfolding_all decide,
   by with_unfolding_all decide⟩

/-- Claim C5 (counterexample): a handle fresh from `img_segmentation_new`
reports reference count 0, not 1 (`allocate` sets `nrefs = 0` and the
builder never increments it). -/
theorem C5_counterexample_nrefs_zero :
    (img_segmentation_new pix5 2 0 1 1 1 0).map img_segmentation_get_nrefs = some 0 ∧
    some (0 : ℤ) ≠ some 1 :=
  ⟨by with_unfolding_all decide, by decide⟩

/-- Claim C5 (amended): every handle returned by `img_segmentation_new`
or by `img_segmentation_select` has reference count 0 at the moment it is
returned; the first reference is taken explicitly by the caller via
`img_segmentation_link` (the chain pool does so on construction). -/
theorem C5_nrefs_zero_on_return :
    (∀ (img : ℕ → ℚ) (type offset width height stride : ℕ) (t : ℚ) (sgm : Segmentation),
        img_segmentation_new img type offset width height stride t = some sgm →
        img_segmentation_get_nrefs sgm = 0) ∧
    (∀ (src : Segmentation) (list : List ℤ) (dst : Segmentation),
        img_segmentation_select src list = some dst →
        img_segmentation_get_nrefs dst = 0) := by
  constructor
  · intro img type offset width height stride t sgm h
    unfold img_segmentation_new at h
    split at h
    · split at h
      · exact absurd h (by simp)
      · injection h with h'
        rw [← h']
        rfl
    · exact absurd h (by simp)
  · intro src list dst h
    unfold img_segmentation_select at h
    split at h
    · exact absurd h (by simp)
    · split at h
      · exact absurd h (by simp)
      · injection h with h'
        rw [← h']
        rfl

/-- Claim C5 witness: the general theorem instantiated on a 1-pixel image
and on a singleton selection from it. -/
theorem C5_nrefs_zero_on_return_witness :
    ∃ sgm, img_segmentation_new pix5 2 0 1 1 1 0 = some sgm ∧
      img_segmentation_get_nrefs sgm = 0 ∧
      ∃ dst, img_segmentation_select sgm [0] = some dst ∧
        img_segmentation_get_nrefs dst = 0 := by
  have hsgm : img_segmentation_new pix5 2 0 1 1 1 0 = some sgm1 := by
    with_unfolding_all decide
  have hsel : img_segmentation_select sgm1 [0] = some sgm1 := by
    with_unfolding_all decide
  exact ⟨sgm1, hsgm, C5_nrefs_zero_on_return.1 pix5 2 0 1 1 1 0 sgm1 hsgm,
    sgm1, hsel, C5_nrefs_zero_on_return.2 sgm1 [0] sgm1 hsel⟩

/-- Claim C6 (code bug): the link builder never compares vertically in the
first column (`pix2 = img2[x]` is read only for `x >= 1`), so for the
1-by-2 constant image both cells get an empty mask although the claim
requires the `N` bit of (0,0) and the `S` bit of (0,1): the neighbour is
in range and `|I(0,0) - I(0,1)| = 0 <= threshold`. -/
theorem C6_first_column_vertical_links_missing :
    (|pix5 (cellIdx 0 1 0 0) - pix5 (cellIdx 0 1 0 1)| ≤ 0) ∧
    (build_links pix5 0 1 (fun _ => 0) 0 1 1 2 0).map
      (fun L => (L (cellIdx 0 1 0 0), L (cellIdx 0 1 0 1))) = some (0, 0) ∧
    (0 : ℕ) &&& IMG_LINK_NORTH = 0 ∧ IMG_LINK_NORTH ≠ 0 :=
  ⟨by with_unfolding_all decide, by with_unfolding_all decide, by decide, by decide⟩

/-! ## Grid-search selection (claim C9) -/

/-- The selection fold of `bestShear`, on a nonempty candidate list, is
the plain keep-the-first-maximum loop seeded with candidate 0. -/
theorem bestShear_eq_pickBest (sgm : Segmentation) (segs : List ℕ) (a : ℚ × ℚ × ℚ × ℚ)
    (c : ℚ) (cs : List ℚ) :
    bestShear sgm segs a (c :: cs) =
      pickBest (spacingOf sgm segs a) (c, spacingOf sgm segs a c) cs := by
  have key : ∀ (t : List ℚ) (n : ℕ) (b : ℚ × ℚ), 1 ≤ n →
      (t.enumFrom n).foldl
        (fun (best : ℚ × ℚ) si =>
          if si.1 = 0 ∨ spacingOf sgm segs a si.2 > best.2
          then (si.2, spacingOf sgm segs a si.2) else best) b =
      pickBest (spacingOf sgm segs a) b t := by
    intro t
    induction t with
    | nil => intro n b _; rfl
    | cons d ds ih =>
        intro n b hn
        rw [List.enumFrom_cons, List.foldl_cons, pickBest]
        by_cases hd : spacingOf sgm segs a d > b.2
        · rw [if_pos hd, if_pos (Or.inr hd)]
          exact ih (n + 1) _ (by omega)
        · have hn0 : ¬ ((n, d).1 = 0 ∨ spacingOf sgm segs a (n, d).2 > b.2) := by
            rintro (h0 | h1)
            · exact absurd h0 (by omega)
            · exact hd h1
          rw [if_neg hd, if_neg hn0]
          exact ih (n + 1) b (by omega)
  unfold bestShear
  rw [List.enum_cons, List.foldl_cons]
  rw [if_pos (Or.inl rfl)]
  exact key cs 1 _ le_rfl

/-- Behaviour of the keep-the-first-maximum loop: either the seed is kept
and every candidate spaces no better, or the result is the first
candidate that strictly beats the seed and everything before it, with all
later candidates no better. -/
theorem pickBest_spec (f : ℚ → ℚ) (cs : List ℚ) :
    ∀ b : ℚ × ℚ, b.2 = f b.1 →
      (pickBest f b cs = b ∧ ∀ d ∈ cs, f d ≤ b.2) ∨
      (∃ pre c post, cs = pre ++ c :: post ∧ pickBest f b cs = (c, f c) ∧
        b.2 < f c ∧ (∀ d ∈ pre, f d < f c) ∧ (∀ d ∈ post, f d ≤ f c)) := by
  induction cs with
  | nil => intro b _; exact Or.inl ⟨rfl, by simp⟩
  | cons c cs ih =>
      intro b hb
      by_cases hc : f c > b.2
      · rw [pickBest, if_pos hc]
        rcases ih (c, f c) rfl with ⟨he, hall⟩ | ⟨pre, c', post, hcs, hr, hlt, hpre, hpost⟩
        · refine Or.inr ⟨[], c, cs, by simp, he, hc, by simp, ?_⟩
          simpa using hall
        · refine Or.inr ⟨c :: pre, c', post, by rw [hcs]; rfl, hr, lt_trans hc hlt, ?_, hpost⟩
          intro d hd
          rcases List.mem_cons.mp hd with rfl | hd'
          · exact hlt
          · exact hpre d hd'
      · rw [pickBest, if_neg hc]
        push_neg at hc
        rcases ih b hb with ⟨he, hall⟩ | ⟨pre, c', post, hcs, hr, hlt, hpre, hpost⟩
        · refine Or.inl ⟨he, ?_⟩
          intro d hd
          rcases List.mem_cons.mp hd with rfl | hd'
          · exact hc
          · exact hall d hd'
        · refine Or.inr ⟨c :: pre, c', post, by rw [hcs]; rfl, hr, hlt, ?_, hpost⟩
          intro d hd
          rcases List.mem_cons.mp hd with rfl | hd'
          · exact lt_of_le_of_lt hc hlt
          · exact hpre d hd'

/-- Magnitude of a candidate shear: `|shearAt step i| = step * ((i+1)/2)`
when `step` is non-negative. -/
theorem shearAt_abs (step : ℚ) (hstep : 0 ≤ step) (i : ℕ) :
    |shearAt step i| = step * (((i + 1) / 2 : ℕ) : ℚ) := by
  unfold shearAt
  by_cases h : i % 2 = 0
  · rw [if_pos h]
    have h2 : i / 2 = (i + 1) / 2 := by omega
    rw [h2]
    exact abs_of_nonneg (mul_nonneg hstep (Nat.cast_nonneg _))
  · rw [if_neg h, abs_neg]
    exact abs_of_nonneg (mul_nonneg hstep (Nat.cast_nonneg _))

/-- Candidate magnitudes are non-decreasing along the enumeration order. -/
theorem candidateShears_abs_pairwise (step bound : ℚ) (hstep : 0 ≤ step) :
    (candidateShears step bound).Pairwise (fun a b => |a| ≤ |b|) := by
  unfold candidateShears
  rw [List.pairwise_map]
  refine (List.pairwise_lt_range _).imp ?_
  intro i j hij
  rw [shearAt_abs step hstep, shearAt_abs step hstep]
  exact mul_le_mul_of_nonneg_left
    (by exact_mod_cast Nat.div_le_div_right (by omega)) hstep

/-- Claim C9 (counterexample): on the chain fitted from `sgm3`
(`step = 1/4`, `bound = 5/6`), the program's enumeration is
`0, -step, +step, -2*step, +2*step, ...` — the negative shear of each
magnitude comes first — and differs from the order asserted by the spec
(`0, +step, -step, +2*step, -2*step, ...`). -/
theorem C9_counterexample_order :
    (fhs_step sgm3chain = 1/4 ∧ fhs_bound sgm3chain = 5/6) ∧
    candidateShears (1/4) (5/6) =
      [0, -(1/4), 1/4, -(1/2), 1/2, -(3/4), 3/4, -1, 1] ∧
    specCandidateShears (1/4) (5/6) =
      [0, 1/4, -(1/4), 1/2, -(1/2), 3/4, -(3/4), 1, -1] ∧
    candidateShears (1/4) (5/6) ≠ specCandidateShears (1/4) (5/6) :=
  ⟨⟨by with_unfolding_all decide, by with_unfolding_all decide⟩,
   by with_unfolding_all decide, by with_unfolding_all decide,
   by with_unfolding_all decide⟩

/-- Claim C9 (amended): `fit_horizontal_shear` enumerates the candidate
shears `0, -step, +step, -2*step, +2*step, ...` (`candidateShears`), and
selects the first candidate attaining the maximum total inter-segment
spacing: every earlier candidate spaces strictly worse, no candidate
spaces better, and any candidate tying the maximum has magnitude at least
that of the selected shear (magnitudes are non-decreasing along the
enumeration, negative before positive at each magnitude). -/
theorem C9_first_max_spacing_selected (sgm : Segmentation) (chain : Chain) (prec : ℚ)
    (hstep : 0 ≤ fhs_step chain)
    (hne : candidateShears (fhs_step chain) (fhs_bound chain) ≠ []) :
    ∃ pre post,
      candidateShears (fhs_step chain) (fhs_bound chain) =
        pre ++ (fit_horizontal_shear sgm chain prec).horizontal_shear :: post ∧
      (∀ d ∈ pre,
        spacingOf sgm chain.segment (chain.a0, chain.a1, chain.a2, chain.a3) d <
        spacingOf sgm chain.segment (chain.a0, chain.a1, chain.a2, chain.a3)
          ((fit_horizontal_shear sgm chain prec).horizontal_shear)) ∧
      (∀ d ∈ candidateShears (fhs_step chain) (fhs_bound chain),
        spacingOf sgm chain.segment (chain.a0, chain.a1, chain.a2, chain.a3) d ≤
        spacingOf sgm chain.segment (chain.a0, chain.a1, chain.a2, chain.a3)
          ((fit_horizontal_shear sgm chain prec).horizontal_shear)) ∧
      (∀ d ∈ candidateShears (fhs_step chain) (fhs_bound chain),
        spacingOf sgm chain.segment (chain.a0, chain.a1, chain.a2, chain.a3) d =
        spacingOf sgm chain.segment (chain.a0, chain.a1, chain.a2, chain.a3)
          ((fit_horizontal_shear sgm chain prec).horizontal_shear) →
        |(fit_horizontal_shear sgm chain prec).horizontal_shear| ≤ |d|) := by
  have hbest : (fit_horizontal_shear sgm chain prec).horizontal_shear =
      (bestShear sgm chain.segment (chain.a0, chain.a1, chain.a2, chain.a3)
        (candidateShears (fhs_step chain) (fhs_bound chain))).1 := rfl
  obtain ⟨c, cs, hcc⟩ : ∃ c cs,
      candidateShears (fhs_step chain) (fhs_bound chain) = c :: cs := by
    cases h : candidateShears (fhs_step chain) (fhs_bound chain) with
    | nil => exact absurd h hne
    | cons c cs => exact ⟨c, cs, rfl⟩
  have hpair := candidateShears_abs_pairwise (fhs_step chain) (fhs_bound chain) hstep
  rw [hcc] at hpair
  rw [hbest, hcc, bestShear_eq_pickBest]
  set f := spacingOf sgm chain.segment (chain.a0, chain.a1, chain.a2, chain.a3) with hf
  rcases pickBest_spec f cs (c, f c) rfl with ⟨he, hall⟩ |
    ⟨pre, c', post, hcs, hr, hlt, hpre, hpost⟩
  · rw [he]
    refine ⟨[], cs, by simp, by simp, ?_, ?_⟩
    · intro d hd
      rcases List.mem_cons.mp hd with rfl | hd'
      · exact le_rfl
      · exact hall d hd'
    · intro d hd _
      rcases List.mem_cons.mp hd with rfl | hd'
      · exact le_rfl
      · exact (List.pairwise_cons.mp hpair).1 d hd'
  · rw [hr]
    have hdec : c :: cs = (c :: pre) ++ c' :: post := by rw [hcs]; rfl
    refine ⟨c :: pre, post, hdec, ?_, ?_, ?_⟩
    · intro d hd
      rcases List.mem_cons.mp hd with rfl | hd'
      · exact hlt
      · exact hpre d hd'
    · intro d hd
      rcases List.mem_cons.mp hd with rfl | hd'
      · exact le_of_lt hlt
      · rcases List.mem_append.mp (by rw [← hcs]; exact hd') with hdp | hdc
        · exact le_of_lt (hpre d hdp)
        · rcases List.mem_cons.mp hdc with rfl | hdq
          · exact le_rfl
          · exact hpost d hdq
    · intro d hd htie
      have hpair' : (c' :: post).Pairwise (fun a b => |a| ≤ |b|) := by
        have hsub : (c' :: post).Sublist ((c :: pre) ++ c' :: post) :=
          List.sublist_append_right _ _
        rw [← hdec] at hsub
        exact List.Pairwise.sublist hsub hpair
      rcases List.mem_cons.mp hd with rfl | hd'
      · exact absurd htie (ne_of_lt hlt)
      · rcases List.mem_append.mp (by rw [← hcs]; exact hd') with hdp | hdc
        · exact absurd htie (ne_of_lt (hpre d hdp))
        · rcases List.mem_cons.mp hdc with rfl | hdq
          · exact le_rfl
          · exact (List.pairwise_cons.mp hpair').1 d hdq

/-- Claim C9 witness: the selection theorem instantiated on the chain
fitted from `sgm3`. -/
theorem C9_first_max_spacing_selected_witness :
    ∃ pre post,
      candidateShears (fhs_step sgm3chain) (fhs_bound sgm3chain) =
        pre ++ (fit_horizontal_shear sgm3 sgm3chain (5/100)).horizontal_shear :: post ∧
      (∀ d ∈ pre,
        spacingOf sgm3 sgm3chain.segment (sgm3chain.a0, sgm3chain.a1, sgm3chain.a2, sgm3chain.a3) d <
        spacingOf sgm3 sgm3chain.segment (sgm3chain.a0, sgm3chain.a1, sgm3chain.a2, sgm3chain.a3)
          ((fit_horizontal_shear sgm3 sgm3chain (5/100)).horizontal_shear)) ∧
      (∀ d ∈ candidateShears (fhs_step sgm3chain) (fhs_bound sgm3chain),
        spacingOf sgm3 sgm3chain.segment (sgm3chain.a0, sgm3chain.a1, sgm3chain.a2, sgm3chain.a3) d ≤
        spacingOf sgm3 sgm3chain.segment (sgm3chain.a0, sgm3chain.a1, sgm3chain.a2, sgm3chain.a3)
          ((fit_horizontal_shear sgm3 sgm3chain (5/100)).horizontal_shear)) ∧
      (∀ d ∈ candidateShears (fhs_step sgm3chain) (fhs_bound sgm3chain),
        spacingOf sgm3 sgm3chain.segment (sgm3chain.a0, sgm3chain.a1, sgm3chain.a2, sgm3chain.a3) d =
        spacingOf sgm3 sgm3chain.segment (sgm3chain.a0, sgm3chain.a1, sgm3chain.a2, sgm3chain.a3)
          ((fit_horizontal_shear sgm3 sgm3chain (5/100)).horizontal_shear) →
        |(fit_horizontal_shear sgm3 sgm3chain (5/100)).horizontal_shear| ≤ |d|) :=
  C9_first_max_spacing_selected sgm3 sgm3chain (5/100)
    (by with_unfolding_all decide) (by with_unfolding_all decide)

/-! ## Admissibility of emitted chains (claim C8) -/

/-- The segment vector of a chainable item starts with its `first`
segment. -/
theorem seqOf_head (c : Chainable) : (seqOf c).head? = some c.first := by
  cases c <;> rfl

/-- Appending a chain-link that shares its left child with the right
child of an admissible item keeps all consecutive pairs admissible: the
new pair `(first of the item, first of the shared child)` is already a
consecutive pair of the item's own segment vector. -/
theorem chain'_seqOf_extend (sgm : Segmentation) (p : ChainParams)
    (l r rc : Chainable) (hl : l.rightChild = some rc) (hr : r.leftChild = some rc)
    (hcl : List.Chain' (level1_admissible sgm p) (seqOf l))
    (hcr : List.Chain' (level1_admissible sgm p) (seqOf r)) :
    List.Chain' (level1_admissible sgm p) (seqOf (Chainable.chainlink l r)) := by
  cases l with
  | seg j => exact absurd hl (by simp [Chainable.rightChild])
  | chainlink a b =>
      cases r with
      | seg j => exact absurd hr (by simp [Chainable.leftChild])
      | chainlink rl rr =>
          have hb : b = rc := by
            simpa [Chainable.rightChild] using hl
          have hrl : rl = rc := by
            simpa [Chainable.leftChild] using hr
          subst hb
          subst hrl
          have hgoal : seqOf (Chainable.chainlink (Chainable.chainlink a rl)
              (Chainable.chainlink rl rr)) =
              (Chainable.chainlink a rl).first :: seqOf (Chainable.chainlink rl rr) := rfl
          rw [hgoal, List.chain'_cons']
          refine ⟨?_, hcr⟩
          intro y hy
          rw [seqOf_head] at hy
          have hy' : (Chainable.chainlink rl rr).first = y := by simpa using hy
          subst hy'
          have hcl' : List.Chain' (level1_admissible sgm p)
              ((Chainable.chainlink a rl).first :: seqOf rl) := hcl
          exact (List.chain'_cons'.mp hcl').1 rl.first (by rw [seqOf_head]; rfl)

/-- Every chain-link created by the level-1 pair scan has admissible
consecutive segments (its two segments pass the admissibility test at
creation). -/
theorem level1Inner_good (sgm : Segmentation) (p : ChainParams) (sl : Array ℕ) (n jl : ℕ) :
    ∀ (fuel jr : ℕ) (st : List Chainable × ℕ),
      (∀ L ∈ st.1, List.Chain' (level1_admissible sgm p) (seqOf L)) →
      ∀ L ∈ (level1Inner sgm p sl n jl fuel jr st).1,
        List.Chain' (level1_admissible sgm p) (seqOf L) := by
  intro fuel
  induction fuel with
  | zero => intro jr st h; exact h
  | succ fuel ih =>
      intro jr st h
      rw [level1Inner]
      dsimp only
      split_ifs with hjr hxb hh hs hd hred
      · exact h
      · exact ih _ _ h
      · exact ih _ _ h
      · exact ih _ _ h
      · exact ih _ _ h
      · refine ih _ _ ?_
        intro L hL
        rcases List.mem_cons.mp hL with rfl | hL'
        · have hseq : seqOf (Chainable.chainlink
              (Chainable.seg (sl.getD jl 0)) (Chainable.seg (sl.getD jr 0))) =
              [sl.getD jl 0, sl.getD jr 0] := rfl
          rw [hseq, List.chain'_cons]
          refine ⟨?_, List.chain'_singleton _⟩
          push_neg at hh hs hd
          exact ⟨not_le.mp hxb, hh.1, hh.2, hs, hd.1, hd.2⟩
        · exact h L hL'
      · exact h

/-- The extension fold of one `top` item preserves admissibility: every
created link joins `top` with a link out of `top`'s right child. -/
theorem sweepTop_fold_good (sgm : Segmentation) (p : ChainParams)
    (top rc : Chainable) (hrc : top.rightChild = some rc)
    (htop : List.Chain' (level1_admissible sgm p) (seqOf top)) (line : ShortLine) :
    ∀ (exts : List Chainable) (st : List Chainable × ℕ),
      (∀ L ∈ st.1, List.Chain' (level1_admissible sgm p) (seqOf L)) →
      (∀ e ∈ exts, e.leftChild = some rc ∧
        List.Chain' (level1_admissible sgm p) (seqOf e)) →
      ∀ L ∈ (exts.foldl
          (fun (st' : List Chainable × ℕ) ext =>
            if short_line_accept sgm line ext.last p.slope p.aatol p.artol then
              (Chainable.chainlink top ext :: st'.1, st'.2 + 1)
            else st') st).1,
        List.Chain' (level1_admissible sgm p) (seqOf L) := by
  intro exts
  induction exts with
  | nil => intro st hst _; exact hst
  | cons e es ih =>
      intro st hst hexts
      rw [List.foldl_cons]
      refine ih _ ?_ (fun d hd => hexts d (List.mem_cons_of_mem e hd))
      split
      · intro L hL
        rcases List.mem_cons.mp hL with rfl | hL'
        · exact chain'_seqOf_extend sgm p top e rc hrc
            (hexts e (List.mem_cons_self e es)).1 htop
            (hexts e (List.mem_cons_self e es)).2
        · exact hst L hL'
      · exact hst

/-- Processing one `top` item of the sweep preserves admissibility. -/
theorem sweepTop_good (sgm : Segmentation) (p : ChainParams) (top : Chainable)
    (htop : List.Chain' (level1_admissible sgm p) (seqOf top))
    (st : List Chainable × ℕ)
    (hst : ∀ L ∈ st.1, List.Chain' (level1_admissible sgm p) (seqOf L)) :
    ∀ L ∈ (sweepTop sgm p st top).1,
      List.Chain' (level1_admissible sgm p) (seqOf L) := by
  unfold sweepTop
  split
  · exact hst
  · rename_i rc hrc
    refine sweepTop_fold_good sgm p top rc hrc htop _ _ st hst ?_
    intro e he
    unfold firstLinks at he
    have he' := List.mem_filter.mp he
    exact ⟨of_decide_eq_true he'.2, hst e he'.1⟩

/-- One sweep pass preserves admissibility of every link in the list. -/
theorem sweep_good (sgm : Segmentation) (p : ChainParams) (links : List Chainable)
    (h : ∀ L ∈ links, List.Chain' (level1_admissible sgm p) (seqOf L)) :
    ∀ L ∈ (sweep sgm p links).1,
      List.Chain' (level1_admissible sgm p) (seqOf L) := by
  unfold sweep
  split
  · intro L hL; exact absurd hL (List.not_mem_nil L)
  · rename_i top0 rest
    have key : ∀ (tops : List Chainable) (st : List Chainable × ℕ),
        (∀ t ∈ tops, List.Chain' (level1_admissible sgm p) (seqOf t)) →
        (∀ L ∈ st.1, List.Chain' (level1_admissible sgm p) (seqOf L)) →
        ∀ L ∈ (tops.foldl (sweepTop sgm p) st).1,
          List.Chain' (level1_admissible sgm p) (seqOf L) := by
      intro tops
      induction tops with
      | nil => intro st _ hst; exact hst
      | cons t ts ih =>
          intro st htops hst
          rw [List.foldl_cons]
          exact ih _ (fun d hd => htops d (List.mem_cons_of_mem t hd))
            (sweepTop_good sgm p t (htops t (List.mem_cons_self t ts)) st hst)
    refine key _ _ ?_ h
    intro t ht
    exact h t ((List.takeWhile_sublist _).subset ht)

/-- The sweep loop preserves admissibility. -/
theorem sweepLoop_good (sgm : Segmentation) (p : ChainParams) :
    ∀ (fuel count : ℕ) (links : List Chainable),
      (∀ L ∈ links, List.Chain' (level1_admissible sgm p) (seqOf L)) →
      ∀ L ∈ sweepLoop sgm p fuel count links,
        List.Chain' (level1_admissible sgm p) (seqOf L) := by
  intro fuel
  induction fuel with
  | zero => intro count links h; exact h
  | succ fuel ih =>
      intro count links h
      rw [sweepLoop]
      split
      · exact ih _ _ (sweep_good sgm p links h)
      · exact h

/-- Every link of the chain-link graph built by `img_chainpool_new` has
admissible consecutive segments. -/
theorem chainLinksOf_good (sgm : Segmentation) (p : ChainParams) :
    ∀ L ∈ chainLinksOf sgm p,
      List.Chain' (level1_admissible sgm p) (seqOf L) := by
  unfold chainLinksOf
  apply sweepLoop_good
  have key : ∀ (js : List ℕ) (st : List Chainable × ℕ),
      (∀ L ∈ st.1, List.Chain' (level1_admissible sgm p) (seqOf L)) →
      ∀ L ∈ (js.foldl (fun st jl =>
          level1Inner sgm p (sort_segments (fun j => (segAt sgm j).xcen)
            (Array.range sgm.number)) sgm.number jl sgm.number (jl + 1) st) st).1,
        List.Chain' (level1_admissible sgm p) (seqOf L) := by
    intro js
    induction js with
    | nil => intro st hst; exact hst
    | cons j js ih =>
        intro st hst
        rw [List.foldl_cons]
        exact ih _ (level1Inner_good sgm p _ _ _ _ _ st hst)
  exact key _ _ (by intro L hL; exact absurd hL (List.not_mem_nil L))

/-- A successful vertical-shear fit leaves the segment vector unchanged. -/
theorem fit_vertical_shear_segment (sgm : Segmentation) (c : Chain) (prec : ℚ)
    (c' : Chain) (h : fit_vertical_shear sgm c prec = some c') :
    c'.segment = c.segment := by
  unfold fit_vertical_shear at h
  split at h
  · exact absurd h (by simp)
  · injection h with h'
    rw [← h']

/-- Every chain produced by the fitting pipeline carries the segment
vector of its chain-link. -/
theorem fit_chain_segment (sgm : Segmentation) (prec : ℚ) (top : Chainable)
    (ch : Chain) (h : fit_chain sgm prec top = some ch) :
    ch.segment = seqOf top := by
  unfold fit_chain at h
  cases hv : fit_vertical_shear sgm (initChain top) prec with
  | none => rw [hv] at h; exact absurd h (by simp)
  | some ch1 =>
      rw [hv] at h
      simp only [Option.map_some'] at h
      injection h with h2
      rw [← h2]
      show (fit_horizontal_shear sgm ch1 prec).segment = seqOf top
      rw [show (fit_horizontal_shear sgm ch1 prec).segment = ch1.segment from rfl,
        fit_vertical_shear_segment sgm (initChain top) prec ch1 hv]
      rfl

/-- Claim C8: every consecutive pair of segments of every chain emitted
by `img_chainpool_new` satisfies the four level-1 admissibility
conditions (x bound, exclusive height range, slope bound, horizontal
spacing bounds) with the earlier segment as left and the later as right,
for the clamped tuning parameters. -/
theorem C8_emitted_pairs_admissible (sgm : Segmentation)
    (satol srtol drmin drmax slope aatol artol prec : ℚ) (lmin lmax : ℤ)
    (pool : Chainpool)
    (hpool : img_chainpool_new sgm satol srtol drmin drmax slope aatol artol prec lmin lmax
      = some pool)
    (ch : Chain) (hch : ch ∈ pool.chain) :
    List.Chain'
      (level1_admissible sgm (clampParams satol srtol drmin drmax slope aatol artol prec))
      ch.segment := by
  unfold img_chainpool_new at hpool
  split at hpool
  · exact absurd hpool (by simp)
  · injection hpool with hpool'
    rw [← hpool'] at hch
    obtain ⟨top, htop, hfit⟩ := List.mem_filterMap.mp hch
    rw [fit_chain_segment _ _ _ _ hfit]
    refine chainLinksOf_good sgm _ top ?_
    exact (List.takeWhile_sublist _).subset (List.mem_of_mem_filter htop)

/-- Claim C8 witness: the emitted chain of `sgm3` with default tuning has
admissible consecutive pairs. -/
theorem C8_emitted_pairs_admissible_witness :
    ∃ pool, img_chainpool_new sgm3 2 (5/100) (4/10) (25/10) (3/10) 2 (5/100) (5/100) 3 10
        = some pool ∧
      ∀ ch ∈ pool.chain,
        List.Chain'
          (level1_admissible sgm3 (clampParams 2 (5/100) (4/10) (25/10) (3/10) 2 (5/100) (5/100)))
          ch.segment := by
  have hp : img_chainpool_new sgm3 2 (5/100) (4/10) (25/10) (3/10) 2 (5/100) (5/100) 3 10 =
      some { segmentation := img_segmentation_link sgm3,
             chain := (poolCandidates sgm3
                 (clampParams 2 (5/100) (4/10) (25/10) (3/10) 2 (5/100) (5/100)) 3).filterMap
               (fit_chain sgm3
                 (clampParams 2 (5/100) (4/10) (25/10) (3/10) 2 (5/100) (5/100)).prec) } := by
    with_unfolding_all decide
  exact ⟨_, hp, fun ch hch =>
    C8_emitted_pairs_admissible sgm3 2 (5/100) (4/10) (25/10) (3/10) 2 (5/100) (5/100) 3 10
      _ hp ch hch⟩

/-! ## The region extractor stores each pixel exactly once (claims C7 and C10) -/

/-- The `OWNED` test only looks at bit 4 of a mask. -/
theorem and_owned_eq_zero_iff (x : ℕ) :
    x &&& IMG_LINK_OWNED = 0 ↔ x.testBit 4 = false := by
  have h16 : IMG_LINK_OWNED = 2 ^ 4 := by decide
  rw [h16, Nat.and_two_pow]
  simp [Nat.mul_eq_zero, Bool.toNat_eq_zero]

/-- `OWNED`-freeness distributes over bitwise or. -/
theorem or_owned_eq_zero_iff (x y : ℕ) :
    (x ||| y) &&& IMG_LINK_OWNED = 0 ↔
      (x &&& IMG_LINK_OWNED = 0 ∧ y &&& IMG_LINK_OWNED = 0) := by
  simp [and_owned_eq_zero_iff, Nat.testBit_or]

/-- Setting the `OWNED` bit of a pixel makes it owned. -/
theorem not_unownedAt_update_self (l : ℕ → ℕ) (c : ℕ) :
    ¬ unownedAt (Function.update l c (l c ||| IMG_LINK_OWNED)) c := by
  intro h
  rw [unownedAt, Function.update_same, or_owned_eq_zero_iff] at h
  exact absurd h.2 (by decide)

/-- Setting the `OWNED` bit of pixel `c` leaves exactly the other unowned
pixels unowned. -/
theorem unownedAt_update_or (l : ℕ → ℕ) (c j : ℕ) :
    unownedAt (Function.update l c (l c ||| IMG_LINK_OWNED)) j ↔
      (unownedAt l j ∧ j ≠ c) := by
  rcases eq_or_ne j c with rfl | hne
  · constructor
    · intro h; exact absurd h (not_unownedAt_update_self l j)
    · intro h; exact absurd rfl h.2
  · rw [unownedAt, Function.update_noteq hne]
    exact ⟨fun h => ⟨h, hne⟩, fun h => h.1⟩

/-- At most `npix` pixels are unowned. -/
theorem countUnowned_le (npix : ℕ) (l : ℕ → ℕ) : countUnowned npix l ≤ npix := by
  rw [countUnowned]
  exact le_trans (Finset.card_filter_le _ _) (le_of_eq (Finset.card_range npix))

/-- Marking an unowned in-range pixel owned decrements the unowned count. -/
theorem countUnowned_update (npix : ℕ) (l : ℕ → ℕ) (c : ℕ) (hc : c < npix)
    (hu : unownedAt l c) :
    countUnowned npix (Function.update l c (l c ||| IMG_LINK_OWNED)) + 1 =
      countUnowned npix l := by
  rw [countUnowned, countUnowned]
  have hset : (Finset.range npix).filter
      (fun i => Function.update l c (l c ||| IMG_LINK_OWNED) i &&& IMG_LINK_OWNED = 0) =
      ((Finset.range npix).filter (fun i => l i &&& IMG_LINK_OWNED = 0)).erase c := by
    ext j
    simp only [Finset.mem_erase, Finset.mem_filter, Finset.mem_range]
    constructor
    · rintro ⟨hj, hval⟩
      have h2 := (unownedAt_update_or l c j).mp hval
      exact ⟨h2.2, hj, h2.1⟩
    · rintro ⟨hne, hj, hval⟩
      exact ⟨hj, (unownedAt_update_or l c j).mpr ⟨hval, hne⟩⟩
  have hmem : c ∈ (Finset.range npix).filter (fun i => l i &&& IMG_LINK_OWNED = 0) := by
    rw [Finset.mem_filter, Finset.mem_range]
    exact ⟨hc, hu⟩
  have hpos : 1 ≤ ((Finset.range npix).filter (fun i => l i &&& IMG_LINK_OWNED = 0)).card :=
    Finset.card_pos.mpr ⟨c, hmem⟩
  rw [hset, Finset.card_erase_of_mem hmem]
  omega

/-- Effect of the `CHECK` fold over a list of neighbour candidates: the
queue and the store grow by the same list of newly-owned in-range unowned
pixels, each new store entry carries the wrapped raster coordinates of its
index, and the owned set and the unowned count change accordingly. -/
theorem checkNbr_fold_spec (width npix : ℕ) (checks : List (Bool × ℕ)) :
    ∀ (l : ℕ → ℕ) (stored : List (ℕ × Point)) (q : List ℕ),
    ∃ Δ : List ℕ,
      (checks.foldl (checkNbr width npix) (l, stored, q)).2.2 = q ++ Δ ∧
      (checks.foldl (checkNbr width npix) (l, stored, q)).2.1.map Prod.fst =
        stored.map Prod.fst ++ Δ ∧
      (∀ ip ∈ (checks.foldl (checkNbr width npix) (l, stored, q)).2.1,
        ip ∈ stored ∨ coordOK width ip) ∧
      (∀ c ∈ Δ, c < npix ∧ unownedAt l c) ∧
      Δ.Nodup ∧
      (∀ j, unownedAt (checks.foldl (checkNbr width npix) (l, stored, q)).1 j ↔
        (unownedAt l j ∧ j ∉ Δ)) ∧
      countUnowned npix (checks.foldl (checkNbr width npix) (l, stored, q)).1 + Δ.length =
        countUnowned npix l := by
  induction checks with
  | nil =>
      intro l stored q
      refine ⟨[], by simp, by simp, fun ip hip => Or.inl hip, by simp,
        List.nodup_nil, fun j => by simp, by simp⟩
  | cons chk rest ih =>
      intro l stored q
      rw [List.foldl_cons]
      by_cases hc : chk.1 = true ∧ chk.2 < npix ∧ l chk.2 &&& IMG_LINK_OWNED = 0
      · have hstep : checkNbr width npix (l, stored, q) chk =
            (Function.update l chk.2 (l chk.2 ||| IMG_LINK_OWNED),
             stored ++ [(chk.2, storePoint l width chk.2)], q ++ [chk.2]) := by
          unfold checkNbr
          dsimp only
          rw [if_pos hc]
        rw [hstep]
        obtain ⟨Δ, h1, h2, h3, h4, h5, h6, h7⟩ :=
          ih (Function.update l chk.2 (l chk.2 ||| IMG_LINK_OWNED))
            (stored ++ [(chk.2, storePoint l width chk.2)]) (q ++ [chk.2])
        refine ⟨chk.2 :: Δ, ?_, ?_, ?_, ?_, ?_, ?_, ?_⟩
        · rw [h1]; simp
        · rw [h2]; simp
        · intro ip hip
          rcases h3 ip hip with h | h
          · rcases List.mem_append.mp h with h' | h'
            · exact Or.inl h'
            · rw [List.mem_singleton] at h'
              subst h'
              exact Or.inr ⟨rfl, rfl⟩
          · exact Or.inr h
        · intro c hcmem
          rcases List.mem_cons.mp hcmem with rfl | h
          · exact ⟨hc.2.1, hc.2.2⟩
          · obtain ⟨hn, hu⟩ := h4 c h
            exact ⟨hn, ((unownedAt_update_or l chk.2 c).mp hu).1⟩
        · rw [List.nodup_cons]
          refine ⟨?_, h5⟩
          intro hmem
          exact ((unownedAt_update_or l chk.2 chk.2).mp (h4 chk.2 hmem).2).2 rfl
        · intro j
          rw [h6 j, unownedAt_update_or]
          simp only [List.mem_cons, not_or]
          tauto
        · have hupd := countUnowned_update npix l chk.2 hc.2.1 hc.2.2
          rw [List.length_cons]
          omega
      · have hstep : checkNbr width npix (l, stored, q) chk = (l, stored, q) := by
          unfold checkNbr
          dsimp only
          rw [if_neg hc]
        rw [hstep]
        exact ih l stored q

/-- Invariant of the region scan loop: run with enough fuel on a queue of
owned pixels, it stores a duplicate-free list of previously unowned
in-range pixels (with wrapped raster coordinates) and marks exactly those
pixels owned.  The fuel bound `2 * countUnowned + |pending| < fuel` shows
`2 * npix + 2` always suffices. -/
theorem floodAux_spec (width npix : ℕ) :
    ∀ (fuel : ℕ) (l : ℕ → ℕ) (pending : List ℕ) (stored : List (ℕ × Point)),
    (∀ c ∈ pending, ¬ unownedAt l c) →
    2 * countUnowned npix l + pending.length < fuel →
    ∃ Δ : List ℕ,
      (floodAux width npix fuel l pending stored).2.map Prod.fst =
        stored.map Prod.fst ++ Δ ∧
      (∀ ip ∈ (floodAux width npix fuel l pending stored).2,
        ip ∈ stored ∨ coordOK width ip) ∧
      (∀ c ∈ Δ, c < npix ∧ unownedAt l c) ∧
      Δ.Nodup ∧
      (∀ j, unownedAt (floodAux width npix fuel l pending stored).1 j ↔
        (unownedAt l j ∧ j ∉ Δ)) := by
  intro fuel
  induction fuel with
  | zero => intro l pending stored hp hfuel; exact absurd hfuel (Nat.not_lt_zero _)
  | succ fuel ih =>
      intro l pending stored hp hfuel
      cases pending with
      | nil =>
          have hnil : floodAux width npix (fuel + 1) l [] stored = (l, stored) := rfl
          refine ⟨[], by rw [hnil]; simp, ?_, by simp, List.nodup_nil, ?_⟩
          · intro ip hip
            rw [hnil] at hip
            exact Or.inl hip
          · intro j
            rw [hnil]
            simp
      | cons k rest =>
          have hred : floodAux width npix (fuel + 1) l (k :: rest) stored =
              floodAux width npix fuel
                ((neighborChecks width (l k) k).foldl (checkNbr width npix)
                  (l, stored, [])).1
                (rest ++ ((neighborChecks width (l k) k).foldl (checkNbr width npix)
                  (l, stored, [])).2.2)
                ((neighborChecks width (l k) k).foldl (checkNbr width npix)
                  (l, stored, [])).2.1 := rfl
          obtain ⟨Δ₁, f1, f2, f3, f4, f5, f6, f7⟩ :=
            checkNbr_fold_spec width npix (neighborChecks width (l k) k) l stored []
          set st := (neighborChecks width (l k) k).foldl (checkNbr width npix)
            (l, stored, []) with hst
          have hq : st.2.2 = Δ₁ := by rw [f1]; simp
          have hp' : ∀ c ∈ rest ++ st.2.2, ¬ unownedAt st.1 c := by
            intro c hcmem
            rcases List.mem_append.mp hcmem with hcr | hcq
            · intro hun
              exact hp c (List.mem_cons_of_mem _ hcr) ((f6 c).mp hun).1
            · rw [hq] at hcq
              intro hun
              exact ((f6 c).mp hun).2 hcq
          have hfuel' : 2 * countUnowned npix st.1 + (rest ++ st.2.2).length < fuel := by
            rw [List.length_append, hq]
            rw [List.length_cons] at hfuel
            omega
          obtain ⟨Δ₂, g1, g2, g3, g4, g5⟩ := ih st.1 (rest ++ st.2.2) st.2.1 hp' hfuel'
          refine ⟨Δ₁ ++ Δ₂, ?_, ?_, ?_, ?_, ?_⟩
          · rw [hred, g1, f2, List.append_assoc]
          · intro ip hip
            rw [hred] at hip
            rcases g2 ip hip with h | h
            · exact f3 ip h
            · exact Or.inr h
          · intro c hcmem
            rcases List.mem_append.mp hcmem with h | h
            · exact f4 c h
            · obtain ⟨hn, hu⟩ := g3 c h
              exact ⟨hn, ((f6 c).mp hu).1⟩
          · rw [List.nodup_append]
            refine ⟨f5, g4, ?_⟩
            intro c hc1 hc2
            exact ((f6 c).mp (g3 c hc2).2).2 hc1
          · intro j
            rw [hred, g5 j, f6 j]
            simp only [List.mem_append, not_or]
            tauto

/-- Invariant of the outer raster scan over any list of in-range seed
candidates: the regions grow by a duplicate-free list of previously
unowned pixels with wrapped raster coordinates, exactly those pixels
become owned, and every scanned pixel ends up owned. -/
theorem seedFold_spec (width npix : ℕ) :
    ∀ (is : List ℕ) (l : ℕ → ℕ) (regs : List (List (ℕ × Point))),
    (∀ i ∈ is, i < npix) →
    ∃ Δ : List ℕ,
      (is.foldl (seedStep width npix) (l, regs)).2.flatten.map Prod.fst =
        regs.flatten.map Prod.fst ++ Δ ∧
      (∀ ip ∈ (is.foldl (seedStep width npix) (l, regs)).2.flatten,
        ip ∈ regs.flatten ∨ coordOK width ip) ∧
      (∀ c ∈ Δ, c < npix ∧ unownedAt l c) ∧
      Δ.Nodup ∧
      (∀ j, unownedAt (is.foldl (seedStep width npix) (l, regs)).1 j ↔
        (unownedAt l j ∧ j ∉ Δ)) ∧
      (∀ i ∈ is, ¬ unownedAt (is.foldl (seedStep width npix) (l, regs)).1 i) := by
  intro is
  induction is with
  | nil =>
      intro l regs his
      exact ⟨[], by simp, fun ip hip => Or.inl hip, by simp, List.nodup_nil,
        fun j => by simp, by simp⟩
  | cons i is ih =>
      intro l regs his
      rw [List.foldl_cons]
      have hi : i < npix := his i (List.mem_cons_self i is)
      have his' : ∀ j ∈ is, j < npix := fun j hj => his j (List.mem_cons_of_mem _ hj)
      by_cases ho : l i &&& IMG_LINK_OWNED = 0
      · have hstep : seedStep width npix (l, regs) i =
            ((floodAux width npix (2 * npix + 2)
                (Function.update l i (l i ||| IMG_LINK_OWNED)) [i]
                [(i, storePoint l width i)]).1,
             regs ++ [(floodAux width npix (2 * npix + 2)
                (Function.update l i (l i ||| IMG_LINK_OWNED)) [i]
                [(i, storePoint l width i)]).2]) := by
          unfold seedStep
          dsimp only
          rw [if_pos ho]
        obtain ⟨Δf, f1, f2, f3, f4, f5⟩ :=
          floodAux_spec width npix (2 * npix + 2)
            (Function.update l i (l i ||| IMG_LINK_OWNED)) [i]
            [(i, storePoint l width i)]
            (by
              intro c hcmem
              rw [List.mem_singleton] at hcmem
              subst hcmem
              exact not_unownedAt_update_self l c)
            (by
              have h1 := countUnowned_update npix l i hi ho
              have h2 := countUnowned_le npix l
              simp only [List.length_singleton]
              omega)
        set r := floodAux width npix (2 * npix + 2)
          (Function.update l i (l i ||| IMG_LINK_OWNED)) [i]
          [(i, storePoint l width i)] with hr
        obtain ⟨Δ₂, g1, g2, g3, g4, g5, g6⟩ := ih r.1 (regs ++ [r.2]) his'
        rw [hstep]
        refine ⟨(i :: Δf) ++ Δ₂, ?_, ?_, ?_, ?_, ?_, ?_⟩
        · rw [g1]
          simp only [List.flatten_append, List.flatten_cons, List.flatten_nil,
            List.append_nil, List.map_append, f1, List.map_cons, List.map_nil]
          simp [List.append_assoc]
        · intro ip hip
          rcases g2 ip hip with h | h
          · rw [List.flatten_append] at h
            rcases List.mem_append.mp h with h2 | h2
            · exact Or.inl h2
            · have h3 : ip ∈ r.2 := by simpa using h2
              rcases f2 ip h3 with h4 | h4
              · rw [List.mem_singleton] at h4
                subst h4
                exact Or.inr ⟨rfl, rfl⟩
              · exact Or.inr h4
          · exact Or.inr h
        · intro c hcmem
          rcases List.mem_append.mp hcmem with h | h
          · rcases List.mem_cons.mp h with rfl | h2
            · exact ⟨hi, ho⟩
            · obtain ⟨hn, hu⟩ := f3 c h2
              exact ⟨hn, ((unownedAt_update_or l i c).mp hu).1⟩
          · obtain ⟨hn, hu⟩ := g3 c h
            have hu2 := ((f5 c).mp hu).1
            exact ⟨hn, ((unownedAt_update_or l i c).mp hu2).1⟩
        · rw [List.nodup_append, List.nodup_cons]
          refine ⟨⟨?_, f4⟩, g4, ?_⟩
          · intro hmem
            exact not_unownedAt_update_self l i (f3 i hmem).2
          · intro c hc1 hc2
            have hu := (g3 c hc2).2
            obtain ⟨hu2, hnot⟩ := (f5 c).mp hu
            rcases List.mem_cons.mp hc1 with rfl | h2
            · exact not_unownedAt_update_self l c hu2
            · exact hnot h2
        · intro j
          rw [g5 j, f5 j, unownedAt_update_or]
          simp only [List.mem_append, List.mem_cons, not_or]
          tauto
        · intro i' hi'
          rcases List.mem_cons.mp hi' with rfl | h
          · intro hun
            exact not_unownedAt_update_self l i' (((f5 i').mp ((g5 i').mp hun).1)).1
          · exact g6 i' h
      · have hstep : seedStep width npix (l, regs) i = (l, regs) := by
          unfold seedStep
          dsimp only
          rw [if_neg ho]
        rw [hstep]
        obtain ⟨Δ, g1, g2, g3, g4, g5, g6⟩ := ih l regs his'
        refine ⟨Δ, g1, g2, g3, g4, g5, ?_⟩
        intro i' hi'
        rcases List.mem_cons.mp hi' with rfl | h
        · intro hun
          exact ho ((g5 i').mp hun).1
        · exact g6 i' h

/-- The outer raster scan started on an everywhere-unowned link map stores
every pixel of the image exactly once: the flat indices of all stored
points are a permutation of `0 .. npix - 1`, and every stored point
carries the wrapped raster coordinates of its index. -/
theorem segmentRegions_cover (width npix : ℕ) (l : ℕ → ℕ)
    (hl : ∀ j, unownedAt l j) :
    ((segmentRegions width npix l).2.flatten.map Prod.fst).Perm (List.range npix) ∧
    ∀ ip ∈ (segmentRegions width npix l).2.flatten, coordOK width ip := by
  obtain ⟨Δ, g1, g2, g3, g4, g5, g6⟩ :=
    seedFold_spec width npix (List.range npix) l [] (fun i hi => List.mem_range.mp hi)
  unfold segmentRegions
  constructor
  · rw [g1]
    simp only [List.flatten_nil, List.map_nil, List.nil_append]
    rw [List.perm_ext_iff_of_nodup g4 (List.nodup_range npix)]
    intro a
    rw [List.mem_range]
    constructor
    · intro ha; exact (g3 a ha).1
    · intro ha
      by_contra hnot
      exact g6 a (List.mem_range.mpr ha) ((g5 a).mpr ⟨hl a, hnot⟩)
  · intro ip hip
    rcases g2 ip hip with h | h
    · simp at h
    · exact h

/-- Updating a cell with an `OWNED`-free value keeps the whole map
`OWNED`-free. -/
theorem unownedAt_update_value (l : ℕ → ℕ) (idx v : ℕ)
    (hU : ∀ j, unownedAt l j) (hv : v &&& IMG_LINK_OWNED = 0) :
    ∀ j, unownedAt (Function.update l idx v) j := by
  intro j
  rcases eq_or_ne j idx with rfl | hne
  · show Function.update l j v j &&& IMG_LINK_OWNED = 0
    rw [Function.update_same]
    exact hv
  · show Function.update l idx v j &&& IMG_LINK_OWNED = 0
    rw [Function.update_noteq hne]
    exact hU j

/-- A first-row cell of `BUILD_LINKS` writes only `OWNED`-free masks. -/
theorem row0cell_unowned (sim : ℚ → ℚ → Bool) (img : ℕ → ℚ) (ioff ip loff lp x : ℕ)
    (l : ℕ → ℕ) (hU : ∀ j, unownedAt l j) :
    ∀ j, unownedAt (row0cell sim img ioff ip loff lp x l) j := by
  unfold row0cell
  split_ifs with hs
  · exact unownedAt_update_value _ _ _
      (unownedAt_update_value _ _ _ hU
        ((or_owned_eq_zero_iff _ _).mpr ⟨hU _, by decide⟩))
      (by decide)
  · exact unownedAt_update_value _ _ _ hU (by decide)

/-- A general cell of `BUILD_LINKS` writes only `OWNED`-free masks. -/
theorem rowYcell_unowned (sim : ℚ → ℚ → Bool) (img : ℕ → ℚ) (ioff ip loff lp y x : ℕ)
    (l : ℕ → ℕ) (hU : ∀ j, unownedAt l j) :
    ∀ j, unownedAt (rowYcell sim img ioff ip loff lp y x l) j := by
  unfold rowYcell
  dsimp only
  split_ifs with h1 h2 h2
  · exact unownedAt_update_value _ _ _
      (unownedAt_update_value _ _ _
        (unownedAt_update_value _ _ _ hU
          ((or_owned_eq_zero_iff _ _).mpr ⟨hU _, by decide⟩))
        ((or_owned_eq_zero_iff _ _).mpr
          ⟨unownedAt_update_value _ _ _ hU
            ((or_owned_eq_zero_iff _ _).mpr ⟨hU _, by decide⟩) _, by decide⟩))
      (by decide)
  · exact unownedAt_update_value _ _ _
      (unownedAt_update_value _ _ _ hU
        ((or_owned_eq_zero_iff _ _).mpr ⟨hU _, by decide⟩))
      (by decide)
  · exact unownedAt_update_value _ _ _
      (unownedAt_update_value _ _ _ hU
        ((or_owned_eq_zero_iff _ _).mpr ⟨hU _, by decide⟩))
      (by decide)
  · exact unownedAt_update_value _ _ _ hU (by decide)

/-- The first-row loop keeps the link map `OWNED`-free. -/
theorem row0aux_unowned (sim : ℚ → ℚ → Bool) (img : ℕ → ℚ) (ioff ip loff lp : ℕ) :
    ∀ (n : ℕ) (l : ℕ → ℕ), (∀ j, unownedAt l j) →
      ∀ j, unownedAt (row0aux sim img ioff ip loff lp n l) j := by
  intro n
  induction n with
  | zero => intro l hU; exact hU
  | succ n ihn =>
      intro l hU
      exact row0cell_unowned sim img ioff ip loff lp (n + 1) _ (ihn l hU)

/-- The inner loop of a general row keeps the link map `OWNED`-free. -/
theorem rowYaux_unowned (sim : ℚ → ℚ → Bool) (img : ℕ → ℚ) (ioff ip loff lp y : ℕ) :
    ∀ (n : ℕ) (l : ℕ → ℕ), (∀ j, unownedAt l j) →
      ∀ j, unownedAt (rowYaux sim img ioff ip loff lp y n l) j := by
  intro n
  induction n with
  | zero => intro l hU; exact hU
  | succ n ihn =>
      intro l hU
      exact rowYcell_unowned sim img ioff ip loff lp y (n + 1) _ (ihn l hU)

/-- A whole general row keeps the link map `OWNED`-free. -/
theorem rowY_unowned (sim : ℚ → ℚ → Bool) (img : ℕ → ℚ) (ioff ip loff lp width y : ℕ)
    (l : ℕ → ℕ) (hU : ∀ j, unownedAt l j) :
    ∀ j, unownedAt (rowY sim img ioff ip loff lp width y l) j := by
  unfold rowY
  exact rowYaux_unowned sim img ioff ip loff lp y (width - 1) _
    (unownedAt_update_value _ _ _ hU (by decide))

/-- The outer row loop keeps the link map `OWNED`-free. -/
theorem rowsAux_unowned (sim : ℚ → ℚ → Bool) (img : ℕ → ℚ) (ioff ip loff lp width : ℕ) :
    ∀ (m : ℕ) (l : ℕ → ℕ), (∀ j, unownedAt l j) →
      ∀ j, unownedAt (rowsAux sim img ioff ip loff lp width m l) j := by
  intro m
  induction m with
  | zero => intro l hU; exact hU
  | succ m ihm =>
      intro l hU
      exact rowY_unowned sim img ioff ip loff lp width (m + 1) _ (ihm l hU)

/-- The full `BUILD_LINKS` loop body never sets the `OWNED` bit. -/
theorem build_links_loop_unowned (sim : ℚ → ℚ → Bool) (img : ℕ → ℚ)
    (ioff ip loff lp width height : ℕ) (l : ℕ → ℕ) (hU : ∀ j, unownedAt l j) :
    ∀ j, unownedAt (build_links_loop sim img ioff ip loff lp width height l) j := by
  unfold build_links_loop
  exact rowsAux_unowned sim img ioff ip loff lp width (height - 1) _
    (row0aux_unowned sim img ioff ip loff lp (width - 1) _
      (unownedAt_update_value _ _ _ hU (by decide)))

/-- A link map returned by `BUILD_LINKS` never has the `OWNED` bit set. -/
theorem build_links_unowned (img : ℕ → ℚ) (io ipch : ℕ) (lnk : ℕ → ℕ)
    (lo lp w h : ℕ) (t : ℚ) (L : ℕ → ℕ)
    (hU : ∀ j, unownedAt lnk j)
    (hs : build_links img io ipch lnk lo lp w h t = some L) :
    ∀ j, unownedAt L j := by
  unfold build_links at hs
  split_ifs at hs with h1 h2 h3
  · injection hs with hL
    rw [← hL]
    exact build_links_loop_unowned _ img io ipch lo lp w h lnk hU
  · injection hs with hL
    rw [← hL]
    exact build_links_loop_unowned _ img io ipch lo lp w h lnk hU

/-- `buildSegment` keeps the point list it is given. -/
theorem buildSegment_point (pts : List Point) : (buildSegment pts).point = pts := by
  cases pts with
  | nil => rfl
  | cons p rest => rfl

/-- Every segmentation built by `img_segmentation_new` stores, across all
its segments, exactly one point per pixel of the image, with the pixel's
raster coordinates wrapped by the `int16_t` conversion. -/
theorem img_segmentation_new_positions
    (img : ℕ → ℚ) (type offset width height stride : ℕ) (t : ℚ) (sgm : Segmentation)
    (hs : img_segmentation_new img type offset width height stride t = some sgm) :
    (segmentationPositions sgm).Perm (wrappedPixelPositions width height) := by
  unfold img_segmentation_new at hs
  split_ifs at hs with htype
  cases hbl : build_links img offset stride (fun _ => 0) 0 width width height t with
  | none => rw [hbl] at hs; exact Option.noConfusion hs
  | some lnk =>
      rw [hbl] at hs
      injection hs with hsgm
      subst hsgm
      obtain ⟨hperm, hcoord⟩ := segmentRegions_cover width (width * height) lnk
        (build_links_unowned img offset stride (fun _ => 0) 0 width width height t lnk
          (fun _ => show (0 : ℕ) &&& IMG_LINK_OWNED = 0 by decide) hbl)
      have hpos : segmentationPositions
          { nrefs := 0,
            segment := (segmentRegions width (width * height) lnk).2.map
              (fun r => buildSegment (r.map Prod.snd)),
            width := width, height := height } =
          (segmentRegions width (width * height) lnk).2.flatten.map
            (fun ip => (ip.2.x, ip.2.y)) := by
        unfold segmentationPositions
        dsimp only
        rw [List.map_map, List.map_flatten]
        refine congrArg List.flatten (List.map_congr_left ?_)
        intro r hr
        show (buildSegment (r.map Prod.snd)).point.map (fun p => (p.x, p.y)) = _
        rw [buildSegment_point, List.map_map]
        rfl
      rw [hpos]
      have hco : (segmentRegions width (width * height) lnk).2.flatten.map
          (fun ip => (ip.2.x, ip.2.y)) =
          (segmentRegions width (width * height) lnk).2.flatten.map
            (fun ip => (toInt16 ((ip.1 % width : ℕ) : ℤ),
              toInt16 ((ip.1 / width : ℕ) : ℤ))) :=
        List.map_congr_left (fun ip hip => by
          obtain ⟨hx, hy⟩ := hcoord ip hip
          rw [hx, hy])
      rw [hco]
      have hcomp : (segmentRegions width (width * height) lnk).2.flatten.map
          (fun ip => (toInt16 ((ip.1 % width : ℕ) : ℤ),
            toInt16 ((ip.1 / width : ℕ) : ℤ))) =
          ((segmentRegions width (width * height) lnk).2.flatten.map Prod.fst).map
            (fun i => (toInt16 ((i % width : ℕ) : ℤ),
              toInt16 ((i / width : ℕ) : ℤ))) := by
        rw [List.map_map]
        rfl
      rw [hcomp]
      unfold wrappedPixelPositions
      exact hperm.map _

/-- The `int16_t` wrap is the identity on `0 .. 32767`. -/
theorem toInt16_eq_self (z : ℤ) (h0 : 0 ≤ z) (h1 : z ≤ 32767) : toInt16 z = z := by
  unfold toInt16
  rw [Int.emod_eq_of_lt (by omega) (by omega)]
  omega

/-- For dimensions at most 32768, the stored positions are the true raster
positions. -/
theorem wrappedPixelPositions_eq_of_small (width height : ℕ)
    (hw : width ≤ 32768) (hh : height ≤ 32768) :
    wrappedPixelPositions width height = allPixelPositions width height := by
  unfold wrappedPixelPositions allPixelPositions
  apply List.map_congr_left
  intro i hi
  rw [List.mem_range] at hi
  have hwpos : 0 < width := by
    rcases Nat.eq_zero_or_pos width with h0 | hpos
    · subst h0; simp at hi
    · exact hpos
  have hx : i % width ≤ 32767 := by
    have := Nat.mod_lt i hwpos
    omega
  have hdiv : i / width < height := by
    rw [Nat.div_lt_iff_lt_mul hwpos, Nat.mul_comm]
    exact hi
  have hy : i / width ≤ 32767 := by omega
  rw [toInt16_eq_self _ (Int.natCast_nonneg _) (by exact_mod_cast hx),
    toInt16_eq_self _ (Int.natCast_nonneg _) (by exact_mod_cast hy)]

/-- The list of raster positions of an image has no duplicates. -/
theorem allPixelPositions_nodup (width height : ℕ) :
    (allPixelPositions width height).Nodup := by
  unfold allPixelPositions
  refine List.Nodup.map_on ?_ (List.nodup_range _)
  intro x hx y hy hxy
  rw [Prod.mk.injEq] at hxy
  have h1 : x % width = y % width := by exact_mod_cast hxy.1
  have h2 : x / width = y / width := by exact_mod_cast hxy.2
  calc x = width * (x / width) + x % width := (Nat.div_add_mod x width).symm
    _ = width * (y / width) + y % width := by rw [h1, h2]
    _ = y := Nat.div_add_mod y width

/-- Claim C10: point coordinates are stored as `int16_t`: across all
segments, the builder stores exactly one point per pixel whose coordinates
are the raster coordinates `(i mod width, i div width)` wrapped modulo
`2^16`; when both dimensions are at most 32768 the stored coordinates are
exactly the raster coordinates. -/
theorem C10_point_coordinates_int16
    (img : ℕ → ℚ) (type offset width height stride : ℕ) (t : ℚ) (sgm : Segmentation)
    (hs : img_segmentation_new img type offset width height stride t = some sgm) :
    (segmentationPositions sgm).Perm (wrappedPixelPositions width height) ∧
    (width ≤ 32768 → height ≤ 32768 →
      (segmentationPositions sgm).Perm (allPixelPositions width height)) := by
  have hp := img_segmentation_new_positions img type offset width height stride t sgm hs
  refine ⟨hp, fun hw hh => ?_⟩
  rw [wrappedPixelPositions_eq_of_small width height hw hh] at hp
  exact hp

/-- Claim C10 witness: instantiation on the 3-by-1 constant image. -/
theorem C10_point_coordinates_int16_witness :
    (segmentationPositions sgmRow3).Perm (wrappedPixelPositions 3 1) ∧
    ((3 : ℕ) ≤ 32768 → (1 : ℕ) ≤ 32768 →
      (segmentationPositions sgmRow3).Perm (allPixelPositions 3 1)) :=
  C10_point_coordinates_int16 pix5 2 0 3 1 3 0 sgmRow3 (by with_unfolding_all decide)

/-- Claim C7 (amended): for images whose dimensions are both at most
32768, the segments of a successfully built segmentation partition the
pixels: the concatenated point lists are a permutation of all pixel
positions, and no two segments share a position. -/
theorem C7_segments_partition_pixels
    (img : ℕ → ℚ) (type offset width height stride : ℕ) (t : ℚ) (sgm : Segmentation)
    (hs : img_segmentation_new img type offset width height stride t = some sgm)
    (hw : width ≤ 32768) (hh : height ≤ 32768) :
    (segmentationPositions sgm).Perm (allPixelPositions width height) ∧
    List.Pairwise
      (fun g1 g2 : Segment => ∀ q ∈ g1.point, ∀ r ∈ g2.point, (q.x, q.y) ≠ (r.x, r.y))
      sgm.segment := by
  have hp := img_segmentation_new_positions img type offset width height stride t sgm hs
  rw [wrappedPixelPositions_eq_of_small width height hw hh] at hp
  refine ⟨hp, ?_⟩
  have hnodup : (segmentationPositions sgm).Nodup :=
    hp.nodup_iff.mpr (allPixelPositions_nodup width height)
  unfold segmentationPositions at hnodup
  obtain ⟨-, hpw⟩ := List.nodup_flatten.mp hnodup
  have hpw2 := List.pairwise_map.mp hpw
  refine hpw2.imp ?_
  intro g1 g2 hdis q hq r hr heq
  exact hdis (List.mem_map_of_mem _ hq)
    (heq ▸ List.mem_map_of_mem (fun p => (p.x, p.y)) hr)

/-- Claim C7 witness: instantiation on the 2-by-2 constant image. -/
theorem C7_segments_partition_pixels_witness :
    (segmentationPositions sgm22).Perm (allPixelPositions 2 2) ∧
    List.Pairwise
      (fun g1 g2 : Segment => ∀ q ∈ g1.point, ∀ r ∈ g2.point, (q.x, q.y) ≠ (r.x, r.y))
      sgm22.segment :=
  C7_segments_partition_pixels pix5 2 0 2 2 2 0 sgm22
    (by with_unfolding_all decide) (by decide) (by decide)

/-- Claim C7 (counterexample): without the dimension bound the invariant
fails.  For the 32769-by-1 constant image the builder succeeds, but pixel
32768 is stored with wrapped abscissa `toInt16 32768 = -32768`, so the
stored positions are not a permutation of the pixel positions. -/
theorem C7_counterexample_wide_image :
    img_segmentation_new pix5 2 0 32769 1 32769 0 = some wideSgm ∧
    ¬ (segmentationPositions wideSgm).Perm (allPixelPositions 32769 1) := by
  have hs : img_segmentation_new pix5 2 0 32769 1 32769 0 = some wideSgm := by
    with_unfolding_all rfl
  refine ⟨hs, ?_⟩
  intro hperm
  have hp := img_segmentation_new_positions pix5 2 0 32769 1 32769 0 wideSgm hs
  have hmem : ((-32768 : ℤ), (0 : ℤ)) ∈ wrappedPixelPositions 32769 1 := by
    unfold wrappedPixelPositions
    refine List.mem_map.mpr ⟨32768, List.mem_range.mpr (by norm_num), ?_⟩
    with_unfolding_all decide
  have hmem2 : ((-32768 : ℤ), (0 : ℤ)) ∈ segmentationPositions wideSgm :=
    hp.mem_iff.mpr hmem
  have hmem3 := hperm.mem_iff.mp hmem2
  unfold allPixelPositions at hmem3
  obtain ⟨i, -, hi⟩ := List.mem_map.mp hmem3
  have hfst : ((i % 32769 : ℕ) : ℤ) = -32768 := congrArg Prod.fst hi
  have hge := Int.natCast_nonneg (i % 32769)
  omega

end YImage
